import Mathlib

/-!
Shallow embedding of the Mexico-municipality proximity-graph builder
(`test.py` and `rawDataProcessing/initialDataProcessing.py`).

The graph-construction core is modelled faithfully:

* `Municipality` / `MunicipalityEdge` mirror the Python classes; the mutable
  `_neighbors` set is modelled as a `List String` used only through membership
  and insertion, and the mutable municipality dictionary is a
  `List Municipality` indexed by position (Python iterates
  `list(codeToMunicipality.values())` by index, mutating the shared objects).
* The CPython `heapq` routines (`_siftdown`, `_siftup`, `heappush`, `heappop`)
  are transcribed step by step.  Heap entries in `addEdgesToMunicipalitiesV2`
  are `(distance, municipality)` tuples and `Municipality` defines no
  ordering, so comparing two entries with equal distances raises `TypeError`;
  comparison is therefore modelled as `Option Bool` (`none` = `TypeError`)
  and every heap operation returns an `Option`.
* `getDistanceBetweenMunicipalities` reads only the immutable `lat`/`lon`
  fields and is cached, so inside the assembler it is abstracted as a
  parameter `dist : Municipality → Municipality → ℚ`; the haversine formula
  itself is embedded separately over `ℝ`.
-/

namespace MexicoEVData

/-- `MAX_EDGES = 10`, max number of connected municipalities (source constant). -/
def MAX_EDGES : Nat := 10

/-- `MAX_DISTANCE = 100` miles (source constant). -/
def MAX_DISTANCE : ℚ := 100

/-- The `MunicipalityEdge` class: `fromMuniCode`, `toMuniCode`, `distance`.
In the graph-building paths modelled here the distance is always a number
(`None` never reaches the heap); `setEdgeDistance` treats `0` as the falsy
value `not self.distance`. -/
structure MunicipalityEdge where
  fromMuniCode : String
  toMuniCode : String
  distance : ℚ
deriving DecidableEq

/-- The `Municipality` class.  `_neighbors` is the mutable set of
already-connected municipality codes (used only via `in` and `.add`),
`edges` the mutable adjacency list. -/
structure Municipality where
  name : String
  state : String
  code : String
  lat : ℚ
  lon : ℚ
  hasSupercharger : Bool
  _neighbors : List String
  edges : List MunicipalityEdge
deriving DecidableEq

instance : Inhabited Municipality := ⟨⟨"", "", "", 0, 0, false, [], []⟩⟩

/-! ### CPython `heapq`, transcribed

`none` models a raised `TypeError` (or `IndexError` for `heappop []`). -/

/-- `_siftdown(heap, startpos, pos)` where `newitem` has conceptually been
placed at `pos` (the slot is treated as a hole and overwritten at the end,
exactly as CPython reads `newitem = heap[pos]` once).  The loop is driven by
a structural `fuel` counter; since the position strictly decreases, any
`fuel ≥ pos` makes the fuel-exhaustion branch coincide with the real loop
exit (`pos = 0` forces `¬ startpos < pos`, whose result the branch copies),
and call sites always pass such a fuel. -/
def siftdownAux {α : Type} (lt : α → α → Option Bool) (newitem : α)
    (startpos : Nat) : Nat → List α → Nat → Option (List α)
  | 0, heap, pos => some (heap.set pos newitem)
  | fuel + 1, heap, pos =>
    if startpos < pos then
      let parentpos := (pos - 1) / 2
      let parent := heap.getD parentpos newitem
      match lt newitem parent with
      | none => none
      | some true => siftdownAux lt newitem startpos fuel (heap.set pos parent) parentpos
      | some false => some (heap.set pos newitem)
    else some (heap.set pos newitem)

/-- `_siftup(heap, pos)` with `newitem = heap[pos]` threaded explicitly and
`endpos = len(heap)` fixed.  The position strictly increases towards
`endpos`, so any `fuel ≥ endpos - pos` makes the fuel-exhaustion branch
coincide with the real loop exit (it copies the no-child branch), and call
sites always pass such a fuel. -/
def siftupAux {α : Type} (lt : α → α → Option Bool) (newitem : α)
    (endpos startpos : Nat) : Nat → List α → Nat → Option (List α)
  | 0, heap, pos => siftdownAux lt newitem startpos pos (heap.set pos newitem) pos
  | fuel + 1, heap, pos =>
    if 2 * pos + 1 < endpos then
      let childpos := 2 * pos + 1
      let rightpos := childpos + 1
      match (if rightpos < endpos then lt (heap.getD childpos newitem) (heap.getD rightpos newitem)
             else some true) with
      | none => none
      | some b =>
        let childpos2 := if rightpos < endpos ∧ b = false then rightpos else childpos
        siftupAux lt newitem endpos startpos fuel (heap.set pos (heap.getD childpos2 newitem)) childpos2
    else
      siftdownAux lt newitem startpos pos (heap.set pos newitem) pos

/-- `heapq.heappush`: append, then sift the new item down towards the root. -/
def heappush {α : Type} (lt : α → α → Option Bool) (heap : List α) (item : α) :
    Option (List α) :=
  siftdownAux lt item 0 heap.length (heap ++ [item]) heap.length

/-- `heapq.heappop`: pop the last element; if the heap is still nonempty,
return the old root, move the last element to the root and sift it up. -/
def heappop {α : Type} (lt : α → α → Option Bool) (heap : List α) :
    Option (α × List α) :=
  match heap.getLast? with
  | none => none
  | some lastelt =>
    let rest := heap.dropLast
    if rest.isEmpty then some (lastelt, rest)
    else
      let returnitem := rest.getD 0 lastelt
      match siftupAux lt lastelt rest.length 0 rest.length (rest.set 0 lastelt) 0 with
      | none => none
      | some out => some (returnitem, out)

/-- Python comparison of two `(distance, municipality)` heap entries, with the
municipality abstracted by its index in the municipality list.  Tuples compare
componentwise: distinct distances decide the comparison; equal distances fall
through to the two `Municipality` objects, which define no ordering, raising
`TypeError` (`none`) when the objects are distinct and comparing tuple lengths
(`False`) when they are the very same object. -/
def tupleLt (a b : ℚ × Nat) : Option Bool :=
  if a.1 = b.1 then (if a.2 = b.2 then some false else none)
  else some (decide (a.1 < b.1))

/-! ### The canonical selector, `addEdgesToMunicipalitiesV2` -/

/-- The candidate scan of one primary iteration `i`: for every other index
`j`, skip it when already recorded in `muni1._neighbors`, otherwise push
`(distance, j)` onto the closeness heap. -/
def gatherAux (dist : Municipality → Municipality → ℚ) (st : List Municipality)
    (i : Nat) : List Nat → List (ℚ × Nat) → Option (List (ℚ × Nat))
  | [], heap => some heap
  | j :: rest, heap =>
    if i = j then gatherAux dist st i rest heap
    else if (st.getD j default).code ∈ (st.getD i default)._neighbors then
      gatherAux dist st i rest heap
    else
      match heappush tupleLt heap (dist (st.getD i default) (st.getD j default), j) with
      | none => none
      | some h2 => gatherAux dist st i rest h2

/-- Build the closeness heap for primary index `i`. -/
def gatherCandidates (dist : Municipality → Municipality → ℚ)
    (st : List Municipality) (i : Nat) : Option (List (ℚ × Nat)) :=
  gatherAux dist st i (List.range st.length) []

/-- The rank-`j` break test of the pop loop:
`(j < 3 and distance > MAX_DISTANCE/(2**j)) or (j >= 3 and distance > MAX_DISTANCE/(3**j))`. -/
def popBreak (j : Nat) (d : ℚ) : Bool :=
  (decide (j < 3) && decide (d > MAX_DISTANCE / 2 ^ j)) ||
    (decide (3 ≤ j) && decide (d > MAX_DISTANCE / 3 ^ j))

/-- The mutation performed for an accepted candidate: construct the mutual
edge pair, append one edge to each endpoint and record each endpoint's code
in the other's `_neighbors` (the accept branch of the pop loop, `muni1` being
the primary at index `i` and `muni2` the popped candidate at index `k`). -/
def acceptStep (st : List Municipality) (i k : Nat) (d : ℚ) : List Municipality :=
  let muni1 := st.getD i default
  let muni2 := st.getD k default
  let e12 : MunicipalityEdge := ⟨muni1.code, muni2.code, d⟩
  let e21 : MunicipalityEdge := ⟨muni2.code, muni1.code, d⟩
  let st1 := st.set i { muni1 with
    edges := muni1.edges ++ [e12],
    _neighbors := muni1._neighbors.insert muni2.code }
  let muni2b := st1.getD k default
  st1.set k { muni2b with
    edges := muni2b.edges ++ [e21],
    _neighbors := muni2b._neighbors.insert muni1.code }

/-- One step plus recursion of the pop loop `for j in range(MAX_EDGES)`:
`fuel` counts the remaining loop iterations (`MAX_EDGES - j`), `j` is the
loop variable used by the distance gate.  Pop the closest remaining
candidate, stop on an empty heap or a failed distance gate, otherwise apply
`acceptStep` to the endpoints. -/
def popLoopAux (i : Nat) : Nat → List Municipality → List (ℚ × Nat) → Nat →
    Option (List Municipality)
  | 0, st, _heap, _j => some st
  | fuel + 1, st, heap, j =>
    if heap.isEmpty then some st
    else
      match heappop tupleLt heap with
      | none => none
      | some ((d, k), heap2) =>
        if popBreak j d then some st
        else popLoopAux i fuel (acceptStep st i k d) heap2 (j + 1)

/-- The full pop loop of one primary iteration: `for j in range(MAX_EDGES)`. -/
def popLoop (st : List Municipality) (i : Nat) (heap : List (ℚ × Nat)) :
    Option (List Municipality) :=
  popLoopAux i MAX_EDGES st heap 0

/-- The outer loop of `addEdgesToMunicipalitiesV2` over the primary indices. -/
def v2Aux (dist : Municipality → Municipality → ℚ) :
    List Nat → List Municipality → Option (List Municipality)
  | [], st => some st
  | i :: rest, st =>
    match gatherCandidates dist st i with
    | none => none
    | some heap =>
      match popLoop st i heap with
      | none => none
      | some st2 => v2Aux dist rest st2

/-- `addEdgesToMunicipalitiesV2` (graph-construction core): drive the
candidate scan and pop loop over every index of the municipality list. -/
def addEdgesToMunicipalitiesV2 (dist : Municipality → Municipality → ℚ)
    (init : List Municipality) : Option (List Municipality) :=
  v2Aux dist (List.range init.length) init

/-! ### The superseded `Municipality.addEdge` and the precomputed-edge-list
variant `addEdgesToMunicipalities` of `test.py` -/

/-- `MunicipalityEdge.__lt__`: compares distances, always defined. -/
def edgeLt (a b : MunicipalityEdge) : Option Bool :=
  some (decide (a.distance < b.distance))

/-- The admission guard of the superseded `Municipality.addEdge`, read off
the source: `isValidDistance and (len(self.edges) < MAX_EDGES or
edge.distance > self.edges[0].distance)` (with the `self.edges[0]` access
guarded by the short-circuiting `or`, modelled with `headD`). -/
def addEdgeAdmits (m : Municipality) (e : MunicipalityEdge) : Prop :=
  (e.distance < MAX_DISTANCE ∨
    ((e.fromMuniCode.startsWith "09" ∨ e.toMuniCode.startsWith "09") ∧
      e.distance < 2 * MAX_DISTANCE)) ∧
  (m.edges.length < MAX_EDGES ∨ e.distance > (m.edges.headD e).distance)

instance (m : Municipality) (e : MunicipalityEdge) :
    Decidable (addEdgeAdmits m e) := by
  unfold addEdgeAdmits
  infer_instance

/-- The superseded `Municipality.addEdge` (OUTDATED in the source): admit the
edge only if its distance passes the (possibly `09`-doubled) distance check
and the retained heap is under capacity or the new edge is more distant than
`self.edges[0]`; then heap-push it and, over capacity, heap-pop the smallest. -/
def Municipality.addEdge (m : Municipality) (e : MunicipalityEdge) :
    Option Municipality :=
  if addEdgeAdmits m e then
    match heappush edgeLt m.edges e with
    | none => none
    | some h1 =>
      if MAX_EDGES < h1.length then
        match heappop edgeLt h1 with
        | none => none
        | some (_, h2) => some { m with edges := h2 }
      else some { m with edges := h1 }
  else some m

/-- `MunicipalityEdge.setEdgeDistance`: `if not self.distance:` — overwrite
only a falsy (zero / unset) distance. -/
def setEdgeDistance (e : MunicipalityEdge) (d : ℚ) : MunicipalityEdge :=
  if e.distance = 0 then { e with distance := d } else e

/-- The loop of `addEdgesToMunicipalities` (test.py variant): for each
precomputed edge, look both endpoints up by code (`KeyError` = `none`), fill
in a missing distance, and add the edge to the `from` municipality only
(a directional out-edge). -/
def preAux (dist : Municipality → Municipality → ℚ) :
    List MunicipalityEdge → List Municipality → Option (List Municipality)
  | [], st => some st
  | e :: rest, st =>
    match st.findIdx? (fun m => m.code == e.fromMuniCode),
        st.findIdx? (fun m => m.code == e.toMuniCode) with
    | some fi, some ti =>
      let fromMuni := st.getD fi default
      let toMuni := st.getD ti default
      let e2 := setEdgeDistance e (dist fromMuni toMuni)
      match fromMuni.addEdge e2 with
      | none => none
      | some m2 => preAux dist rest (st.set fi m2)
    | _, _ => none

/-- `addEdgesToMunicipalities` (test.py): sort the precomputed edge list by
distance, largest first (Python `sort(key=..., reverse=True)`, stable), then
feed every edge to its `from` endpoint's `addEdge`. -/
def addEdgesToMunicipalities (dist : Municipality → Municipality → ℚ)
    (st : List Municipality) (edges : List MunicipalityEdge) :
    Option (List Municipality) :=
  preAux dist (edges.mergeSort (fun a b => decide (b.distance ≤ a.distance))) st

/-! ### `municipalityDictSerializer` -/

/-- A live Python `Municipality` object: its field dictionary together with
whether the `_neighbors` attribute is still present in `__dict__`. -/
structure PyMunicipality where
  muni : Municipality
  hasNeighborsAttr : Bool
deriving DecidableEq

/-- `municipalityDictSerializer` on a `Municipality` value: `del
dictionary['_neighbors']` mutates the live object (the function returns the
same `__dict__`), and raises `KeyError` (`none`) when the attribute was
already deleted. -/
def municipalityDictSerializer (m : PyMunicipality) : Option PyMunicipality :=
  if m.hasNeighborsAttr then some { m with hasNeighborsAttr := false }
  else none

/-- `json.dump(codeToMunicipality, ..., default=municipalityDictSerializer)`
applies the serializer to every municipality value of the mapping. -/
def serializeMunicipalityDict : List PyMunicipality → Option (List PyMunicipality)
  | [] => some []
  | m :: rest =>
    match municipalityDictSerializer m with
    | none => none
    | some m2 =>
      match serializeMunicipalityDict rest with
      | none => none
      | some rest2 => some (m2 :: rest2)

/-- `addEdgesToMunicipalitiesV2` including its final `json.dump` step: the
assembled municipalities (all still carrying `_neighbors`) are serialized in
place before the mapping is returned. -/
def addEdgesToMunicipalitiesV2Serialized (dist : Municipality → Municipality → ℚ)
    (init : List Municipality) : Option (List PyMunicipality) :=
  match addEdgesToMunicipalitiesV2 dist init with
  | none => none
  | some st => serializeMunicipalityDict (st.map (fun m => ⟨m, true⟩))

/-! ### Concrete entity sets used by the counterexamples

All of them live on a line (constant longitude), with `distAbs` as the
distance; such configurations are realizable by the haversine distance of
points along the equator. -/

/-- A municipality with a given code, positioned on a line via `lat`. -/
def mkMuni (code : String) (lat : ℚ) : Municipality :=
  ⟨code, "", code, lat, 0, false, [], []⟩

/-- One-dimensional distance between two municipalities on a line
(`|lat₁ - lat₂|`, written without `abs` so that the kernel evaluates it). -/
def distAbs (m1 m2 : Municipality) : ℚ :=
  if m1.lat ≤ m2.lat then m2.lat - m1.lat else m1.lat - m2.lat

/-- Twelve municipalities clustered within `123/100000` miles of each other at
pairwise-Sidon positions (scaled Mian–Chowla values), so all pairwise
distances are distinct and pass every rank gate. -/
def c1Init : List Municipality :=
  [mkMuni "00" (1/100000), mkMuni "01" (2/100000), mkMuni "02" (4/100000),
   mkMuni "03" (8/100000), mkMuni "04" (13/100000), mkMuni "05" (21/100000),
   mkMuni "06" (31/100000), mkMuni "07" (45/100000), mkMuni "08" (66/100000),
   mkMuni "09" (81/100000), mkMuni "10" (97/100000), mkMuni "11" (123/100000)]

/-- Three municipalities at line positions 0, 60, 125. -/
def c2Init : List Municipality :=
  [mkMuni "P" 0, mkMuni "Q" 60, mkMuni "R" 125]

/-- Three municipalities at line positions 0, 1, 61, in two iteration orders. -/
def c3InitABC : List Municipality :=
  [mkMuni "A" 0, mkMuni "B" 1, mkMuni "C" 61]

/-- The same three municipalities, iterated starting from `C`. -/
def c3InitCAB : List Municipality :=
  [mkMuni "C" 61, mkMuni "A" 0, mkMuni "B" 1]

/-- The canonical assembler's output on the `A, B, C` order. -/
def c3OutABC : List Municipality :=
  (addEdgesToMunicipalitiesV2 distAbs c3InitABC).getD []

/-- The canonical assembler's output on the `C, A, B` order. -/
def c3OutCAB : List Municipality :=
  (addEdgesToMunicipalitiesV2 distAbs c3InitCAB).getD []

/-- Six municipalities whose first row of candidate distances is
`[150, 200, 250, 250, 263]`: municipality `T0` has two candidates at exactly
equal distance `250`, yet the tied heap entries are never compared. -/
def c10TieInit : List Municipality :=
  [mkMuni "T0" 0, mkMuni "T1" 150, mkMuni "T2" 201, mkMuni "T3" 250,
   mkMuni "T4" (-250), mkMuni "T5" 263]

/-- Three municipalities where `E0` has two candidates at equal distance 10,
and the second heap push compares the tied entries. -/
def c10ErrInit : List Municipality :=
  [mkMuni "E0" 0, mkMuni "E1" 10, mkMuni "E2" (-10)]

/-- Two municipalities 7 miles apart, used by witness instantiations. -/
def witInit : List Municipality := [mkMuni "V0" 0, mkMuni "V1" 7]

/-- The canonical assembler's output on `witInit`. -/
def witOut : List Municipality :=
  (addEdgesToMunicipalitiesV2 distAbs witInit).getD []

/-- A one-candidate closeness heap for pop-loop witness instantiations. -/
def witHeap : List (ℚ × Nat) := [(7, 1)]

/-- The pop loop's output on `witInit` with primary index 0. -/
def popWitOut : List Municipality := (popLoop witInit 0 witHeap).getD []

/-- A single-entity list for the serializer witness. -/
def c9WitInit : List Municipality := [mkMuni "W" 0]

/-- The serialized assembler output on `c9WitInit`. -/
def c9WitOut : List PyMunicipality :=
  (addEdgesToMunicipalitiesV2Serialized distAbs c9WitInit).getD []

/-- Municipalities for the directional (precomputed-edge-list) variant. -/
def c4PreInit : List Municipality := [mkMuni "A" 0, mkMuni "B" 50]

/-- One directional precomputed edge `A → B`. -/
def c4PreEdges : List MunicipalityEdge := [⟨"A", "B", 50⟩]

/-- An edge with a `09`-prefixed from-code at distance 150, admissible for
the superseded `addEdge` only through the doubled distance allowance. -/
def c8Edge09 : MunicipalityEdge := ⟨"09001", "12001", 150⟩

/-! ### The haversine distance function, over `ℝ` -/

/-- Immutable coordinate view of a municipality (degrees), the only data
`getDistanceBetweenMunicipalities` reads. -/
structure GeoPoint where
  lat : ℝ
  lon : ℝ

/-- `math.radians`. -/
noncomputable def radians (x : ℝ) : ℝ := x * (Real.pi / 180)

/-- `math.atan2`, in its standard piecewise definition. -/
noncomputable def atan2 (y x : ℝ) : ℝ :=
  if 0 < x then Real.arctan (y / x)
  else if x < 0 ∧ 0 ≤ y then Real.arctan (y / x) + Real.pi
  else if x < 0 ∧ y < 0 then Real.arctan (y / x) - Real.pi
  else if x = 0 ∧ 0 < y then Real.pi / 2
  else if x = 0 ∧ y < 0 then -(Real.pi / 2)
  else 0

/-- `getDistanceBetweenMunicipalities`, transcribed from the source:
haversine with `R = 6371`, result converted to miles by `/ 1.609`. -/
noncomputable def getDistanceBetweenMunicipalities (muni1 muni2 : GeoPoint) : ℝ :=
  let lat1 := muni1.lat
  let lon1 := muni1.lon
  let lat2 := muni2.lat
  let lon2 := muni2.lon
  let R : ℝ := 6371
  let dLat := radians (lat2 - lat1)
  let dLon := radians (lon2 - lon1)
  let lat1r := radians lat1
  let lat2r := radians lat2
  let a := Real.sin (dLat / 2) ^ 2 +
    Real.cos lat1r * Real.cos lat2r * Real.sin (dLon / 2) ^ 2
  let c := 2 * atan2 (Real.sqrt a) (Real.sqrt (1 - a))
  let distance := R * c
  distance / 1.609

/-- The distance contract as the specification words it: with Earth radius
`R = 6371`, `a = sin²(Δlat/2) + cos(lat1)·cos(lat2)·sin²(Δlon/2)`,
`c = 2·atan2(√a, √(1−a))`, distance `R·c`, converted from kilometers to miles
by dividing by `1.609` (angles in radians). -/
noncomputable def haversineSpecDistance (muni1 muni2 : GeoPoint) : ℝ :=
  let R : ℝ := 6371
  let phi1 := radians muni1.lat
  let phi2 := radians muni2.lat
  let lam1 := radians muni1.lon
  let lam2 := radians muni2.lon
  let a := Real.sin ((phi2 - phi1) / 2) ^ 2 +
    Real.cos phi1 * Real.cos phi2 * Real.sin ((lam2 - lam1) / 2) ^ 2
  let c := 2 * atan2 (Real.sqrt a) (Real.sqrt (1 - a))
  R * c / 1.609

/-! ### Specification-side predicates and invariants -/

/-- The acceptance gate as the specification words it: rank `j` accepts
distance `d` iff `d ≤ MAX_DISTANCE / 2^j` for `j < 3`, else
`d ≤ MAX_DISTANCE / 3^j` (equality accepted). -/
def gateAccepts (j : Nat) (d : ℚ) : Prop :=
  if j < 3 then d ≤ MAX_DISTANCE / 2 ^ j else d ≤ MAX_DISTANCE / 3 ^ j

/-- Ingestion state of the entity list: pairwise-distinct codes (they are the
keys of the Python `codeToMunicipality` dictionary) and empty adjacency
lists and `_neighbors` sets. -/
def InitOK (init : List Municipality) : Prop :=
  (init.map (fun m => m.code)).Nodup ∧ ∀ m ∈ init, m.edges = [] ∧ m._neighbors = []

instance (init : List Municipality) : Decidable (InitOK init) := by
  unfold InitOK
  infer_instance

/-- Invariant of the municipality list maintained by the canonical selector:
codes are distinct; every recorded edge leaves its owner; no duplicated
to-code and every to-code is recorded in `_neighbors`; an entity never has
itself in `_neighbors`; `_neighbors` membership is symmetric; and every edge
has its mutual reverse edge at the entity owning the to-code. -/
structure Inv (st : List Municipality) : Prop where
  codes_nodup : (st.map (fun m => m.code)).Nodup
  from_eq : ∀ p, p < st.length → ∀ e ∈ (st.getD p default).edges,
    e.fromMuniCode = (st.getD p default).code
  to_nodup : ∀ p, p < st.length →
    ((st.getD p default).edges.map (fun e => e.toMuniCode)).Nodup
  to_mem_nbrs : ∀ p, p < st.length → ∀ e ∈ (st.getD p default).edges,
    e.toMuniCode ∈ (st.getD p default)._neighbors
  self_not_nbr : ∀ p, p < st.length →
    (st.getD p default).code ∉ (st.getD p default)._neighbors
  nbrs_symm : ∀ p q, p < st.length → q < st.length →
    ((st.getD q default).code ∈ (st.getD p default)._neighbors ↔
      (st.getD p default).code ∈ (st.getD q default)._neighbors)
  mutual_edge : ∀ p, p < st.length → ∀ e ∈ (st.getD p default).edges,
    ∃ q, q < st.length ∧ (st.getD q default).code = e.toMuniCode ∧
      MunicipalityEdge.mk e.toMuniCode e.fromMuniCode e.distance ∈
        (st.getD q default).edges

/-- State of the closeness heap during the pop loop of primary index `i`:
entry indices are distinct, in range, different from `i`, and not yet
recorded in the primary's `_neighbors`. -/
def PopHeapOK (st : List Municipality) (i : Nat) (heap : List (ℚ × Nat)) : Prop :=
  (heap.map Prod.snd).Nodup ∧
    ∀ x ∈ heap, x.2 < st.length ∧ x.2 ≠ i ∧
      (st.getD x.2 default).code ∉ (st.getD i default)._neighbors

/-- Two municipality lists with the same immutable skeleton (length, codes
and coordinates); the assembler only mutates `edges` and `_neighbors`. -/
def sameSkeleton (st st2 : List Municipality) : Prop :=
  st2.length = st.length ∧ ∀ p, p < st.length →
    (st2.getD p default).code = (st.getD p default).code ∧
    (st2.getD p default).lat = (st.getD p default).lat ∧
    (st2.getD p default).lon = (st.getD p default).lon

/-- `dist` is a pure function of the two coordinate pairs, as the (cached)
haversine distance of the source is. -/
def CoordDist (dist : Municipality → Municipality → ℚ) : Prop :=
  ∀ m1 m2 m3 m4 : Municipality, m1.lat = m3.lat → m1.lon = m3.lon →
    m2.lat = m4.lat → m2.lon = m4.lon → dist m1 m2 = dist m3 m4

/-- Every primary entity's candidate distances are pairwise distinct. -/
def RowDistinct (dist : Municipality → Municipality → ℚ)
    (init : List Municipality) : Prop :=
  ∀ i j k : Fin init.length, j.val ≠ k.val → j.val ≠ i.val → k.val ≠ i.val →
    dist init[i.val] init[j.val] ≠ dist init[i.val] init[k.val]

instance (dist : Municipality → Municipality → ℚ) (init : List Municipality) :
    Decidable (RowDistinct dist init) := by
  unfold RowDistinct
  infer_instance

/-- The admission condition as the claim words it: the distance is below
`MAX_DISTANCE` — or below `2 * MAX_DISTANCE` when either endpoint code
starts with `"09"` — and either the retained list is under capacity or the
new edge is more distant than the current smallest retained edge. -/
def addEdgeAdmitsSpec (m : Municipality) (e : MunicipalityEdge) : Prop :=
  (e.distance < MAX_DISTANCE ∨
    ((e.fromMuniCode.startsWith "09" ∨ e.toMuniCode.startsWith "09") ∧
      e.distance < 2 * MAX_DISTANCE)) ∧
  (m.edges.length < MAX_EDGES ∨
    ∃ s ∈ m.edges, (∀ x ∈ m.edges, s.distance ≤ x.distance) ∧
      s.distance < e.distance)

end MexicoEVData

namespace MexicoEVData

/-! ## General list lemmas -/

theorem getD_eq_get {α : Type} (l : List α) (d : α) {i : Nat} (h : i < l.length) :
    l.getD i d = l[i] := by
  simp [List.getD_eq_getElem?_getD, List.getElem?_eq_getElem h]

theorem getD_set_self {α : Type} (l : List α) {i : Nat} (a d : α) (h : i < l.length) :
    (l.set i a).getD i d = a := by
  simp [List.getD_eq_getElem?_getD, List.getElem?_set_eq_of_lt a h]

theorem getD_set_ne {α : Type} (l : List α) {i j : Nat} (a d : α) (h : i ≠ j) :
    (l.set i a).getD j d = l.getD j d := by
  simp [List.getD_eq_getElem?_getD, List.getElem?_set_ne h]

theorem set_getD_self {α : Type} :
    ∀ (l : List α) (i : Nat) (d : α), i < l.length → l.set i (l.getD i d) = l
  | _ :: _, 0, _, _ => rfl
  | a :: l, i + 1, d, h => by
    have ih := set_getD_self l i d (by simpa using h)
    simpa [List.set] using ih

theorem cons_set_perm {α : Type} :
    ∀ (l : List α) (k : Nat), k < l.length → ∀ (a b : α),
      (a :: l.set k b).Perm (b :: l.set k a)
  | _ :: l, 0, _, a, b => List.Perm.swap b a l
  | c :: l, k + 1, h, a, b => by
    have ih := cons_set_perm l k (by simpa using h) a b
    show (a :: c :: l.set k b).Perm (b :: c :: l.set k a)
    exact (List.Perm.swap c a _).trans ((List.Perm.cons c ih).trans (List.Perm.swap b c _))

theorem set_set_perm {α : Type} :
    ∀ (l : List α) (i j : Nat) (a b : α), i < l.length → j < l.length → i ≠ j →
      ((l.set i a).set j b).Perm ((l.set i b).set j a)
  | _ :: l, 0, j + 1, a, b, _, hj, _ => by
    simpa [List.set] using cons_set_perm l j (by simpa using hj) a b
  | _ :: l, i + 1, 0, a, b, hi, _, _ => by
    simpa [List.set] using cons_set_perm l i (by simpa using hi) b a
  | c :: l, i + 1, j + 1, a, b, hi, hj, hij => by
    simpa [List.set] using
      List.Perm.cons c (set_set_perm l i j a b (by simpa using hi)
        (by simpa using hj) (by omega))
  | _ :: _, 0, 0, _, _, _, _, hij => absurd rfl hij

/-! ## Permutation behaviour of the `heapq` operations -/

theorem siftdownAux_perm {α : Type} (lt : α → α → Option Bool) (newitem : α)
    (startpos : Nat) :
    ∀ (fuel : Nat) (heap : List α) (pos : Nat) (out : List α), pos < heap.length →
      siftdownAux lt newitem startpos fuel heap pos = some out →
      out.Perm (heap.set pos newitem)
  | 0, heap, pos, out, _, h => by
    simp only [siftdownAux] at h
    injection h with h
    exact h ▸ List.Perm.refl _
  | fuel + 1, heap, pos, out, hpos, h => by
    simp only [siftdownAux] at h
    by_cases hsp : startpos < pos
    · rw [if_pos hsp] at h
      have hpar : (pos - 1) / 2 < pos := by omega
      cases hlt : lt newitem (heap.getD ((pos - 1) / 2) newitem) with
      | none => rw [hlt] at h; cases h
      | some b =>
        rw [hlt] at h
        cases b with
        | true =>
          have ih := siftdownAux_perm lt newitem startpos fuel
            (heap.set pos (heap.getD ((pos - 1) / 2) newitem)) ((pos - 1) / 2) out
            (by simpa using lt_trans hpar hpos) h
          refine ih.trans ?_
          have hswap := set_set_perm heap pos ((pos - 1) / 2)
            (heap.getD ((pos - 1) / 2) newitem) newitem hpos (lt_trans hpar hpos)
            (by omega)
          refine hswap.trans ?_
          have hval : (heap.set pos newitem).getD ((pos - 1) / 2) newitem =
              heap.getD ((pos - 1) / 2) newitem :=
            getD_set_ne heap _ _ (by omega)
          rw [← hval, set_getD_self _ _ _ (by simpa using lt_trans hpar hpos)]
        | false =>
          injection h with h
          exact h ▸ List.Perm.refl _
    · rw [if_neg hsp] at h
      injection h with h
      exact h ▸ List.Perm.refl _

theorem siftupAux_perm {α : Type} (lt : α → α → Option Bool) (newitem : α)
    (endpos startpos : Nat) :
    ∀ (fuel : Nat) (heap : List α) (pos : Nat) (out : List α),
      endpos ≤ heap.length → pos < endpos →
      siftupAux lt newitem endpos startpos fuel heap pos = some out →
      out.Perm (heap.set pos newitem)
  | 0, heap, pos, out, hend, hpos, h => by
    simp only [siftupAux] at h
    have := siftdownAux_perm lt newitem startpos pos (heap.set pos newitem) pos out
      (by simp; omega) h
    simpa [List.set_set] using this
  | fuel + 1, heap, pos, out, hend, hpos, h => by
    simp only [siftupAux] at h
    by_cases hc : 2 * pos + 1 < endpos
    · rw [if_pos hc] at h
      cases hlt : (if 2 * pos + 1 + 1 < endpos then
          lt (heap.getD (2 * pos + 1) newitem) (heap.getD (2 * pos + 1 + 1) newitem)
        else some true) with
      | none => rw [hlt] at h; cases h
      | some b =>
        rw [hlt] at h
        have hc2lt : (if 2 * pos + 1 + 1 < endpos ∧ b = false then 2 * pos + 1 + 1
            else 2 * pos + 1) < endpos := by
          split
          · omega
          · exact hc
        have hc2pos : pos < (if 2 * pos + 1 + 1 < endpos ∧ b = false then 2 * pos + 1 + 1
            else 2 * pos + 1) := by
          split <;> omega
        set c2 := (if 2 * pos + 1 + 1 < endpos ∧ b = false then 2 * pos + 1 + 1
          else 2 * pos + 1) with hc2
        have ih := siftupAux_perm lt newitem endpos startpos fuel
          (heap.set pos (heap.getD c2 newitem)) c2 out (by simpa using hend)
          hc2lt h
        refine ih.trans ?_
        have hswap := set_set_perm heap pos c2 (heap.getD c2 newitem) newitem
          (lt_of_lt_of_le hpos hend) (lt_of_lt_of_le hc2lt hend) (by omega)
        refine hswap.trans ?_
        have hval : (heap.set pos newitem).getD c2 newitem = heap.getD c2 newitem :=
          getD_set_ne heap _ _ (by omega)
        rw [← hval, set_getD_self _ _ _ (by simp; exact lt_of_lt_of_le hc2lt hend)]
    · rw [if_neg hc] at h
      have := siftdownAux_perm lt newitem startpos pos (heap.set pos newitem) pos out
        (by simp; exact lt_of_lt_of_le hpos hend) h
      simpa [List.set_set] using this

theorem heappush_perm {α : Type} (lt : α → α → Option Bool) (heap : List α)
    (item : α) (out : List α) (h : heappush lt heap item = some out) :
    out.Perm (item :: heap) := by
  have hp := siftdownAux_perm lt item 0 heap.length (heap ++ [item]) heap.length out
    (by simp) h
  have hval : (heap ++ [item]).getD heap.length item = item := by
    rw [getD_eq_get _ _ (by simp)]
    simp
  have hset := set_getD_self (heap ++ [item]) heap.length item (by simp)
  rw [hval] at hset
  rw [hset] at hp
  exact hp.trans (List.perm_append_singleton item heap)

theorem heappop_perm {α : Type} (lt : α → α → Option Bool) (heap : List α)
    (r : α) (out : List α) (h : heappop lt heap = some (r, out)) :
    (r :: out).Perm heap := by
  unfold heappop at h
  split at h
  · cases h
  next lastelt hl =>
    have hne : heap ≠ [] := by
      intro he
      rw [he] at hl
      cases hl
    have hlast : heap.getLast hne = lastelt := by
      have h2 := List.getLast?_eq_getLast heap hne
      rw [hl] at h2
      injection h2 with h2
      exact h2.symm
    have hdecomp : heap.dropLast ++ [lastelt] = heap := by
      rw [← hlast]
      exact List.dropLast_concat_getLast hne
    by_cases hre : heap.dropLast.isEmpty
    · rw [if_pos hre] at h
      injection h with h
      obtain ⟨h1, h2⟩ := Prod.mk.injEq .. ▸ h
      rw [List.isEmpty_iff] at hre
      rw [hre] at hdecomp
      have heq : heap = [lastelt] := by rw [← hdecomp]; rfl
      rw [← h1, ← h2, hre, heq]
    · rw [if_neg hre] at h
      rw [List.isEmpty_iff] at hre
      cases hrest : heap.dropLast with
      | nil => exact absurd hrest hre
      | cons r0 tl =>
        rw [hrest] at h
        dsimp only [] at h
        cases hsift : siftupAux lt lastelt (r0 :: tl).length 0 (r0 :: tl).length
            ((r0 :: tl).set 0 lastelt) 0 with
        | none => rw [hsift] at h; cases h
        | some out2 =>
          rw [hsift] at h
          injection h with h
          obtain ⟨h1, h2⟩ := Prod.mk.injEq .. ▸ h
          have hperm := siftupAux_perm lt lastelt (r0 :: tl).length 0
            (r0 :: tl).length ((r0 :: tl).set 0 lastelt) 0 out2 (by simp)
            (by simp) hsift
          have hset : ((r0 :: tl).set 0 lastelt).set 0 lastelt = lastelt :: tl := by
            simp [List.set_set, List.set]
          rw [hset] at hperm
          rw [← h1, ← h2, ← hdecomp, hrest]
          exact (List.Perm.cons r0 hperm).trans
            (List.Perm.cons r0 (List.perm_append_singleton lastelt tl).symm)

/-! ## Totality of the `heapq` operations

When every comparison between elements satisfying `P` is defined, the heap
operations on `P`-lists never raise. -/

theorem siftdownAux_total {α : Type} (lt : α → α → Option Bool) (P : α → Prop)
    (hlt : ∀ a b, P a → P b → lt a b ≠ none) (newitem : α) (startpos : Nat) :
    ∀ (fuel : Nat) (heap : List α) (pos : Nat), pos < heap.length →
      (∀ x ∈ heap, P x) → P newitem →
      ∃ out, siftdownAux lt newitem startpos fuel heap pos = some out
  | 0, heap, pos, _, _, _ => ⟨_, rfl⟩
  | fuel + 1, heap, pos, hpos, hP, hnew => by
    simp only [siftdownAux]
    by_cases hsp : startpos < pos
    · rw [if_pos hsp]
      have hparpos : (pos - 1) / 2 < heap.length := by omega
      have hparP : P (heap.getD ((pos - 1) / 2) newitem) := by
        rw [getD_eq_get _ _ hparpos]
        exact hP _ (List.getElem_mem ..)
      cases hlt2 : lt newitem (heap.getD ((pos - 1) / 2) newitem) with
      | none => exact absurd hlt2 (hlt _ _ hnew hparP)
      | some b =>
        cases b with
        | true =>
          exact siftdownAux_total lt P hlt newitem startpos fuel _ _
            (by simpa using hparpos)
            (fun x hx => (List.mem_or_eq_of_mem_set hx).elim (hP x)
              (fun he => he ▸ hparP)) hnew
        | false => exact ⟨_, rfl⟩
    · rw [if_neg hsp]
      exact ⟨_, rfl⟩

theorem siftupAux_total {α : Type} (lt : α → α → Option Bool) (P : α → Prop)
    (hlt : ∀ a b, P a → P b → lt a b ≠ none) (newitem : α) (endpos startpos : Nat) :
    ∀ (fuel : Nat) (heap : List α) (pos : Nat), endpos ≤ heap.length → pos < endpos →
      (∀ x ∈ heap, P x) → P newitem →
      ∃ out, siftupAux lt newitem endpos startpos fuel heap pos = some out
  | 0, heap, pos, hend, hpos, hP, hnew => by
    simp only [siftupAux]
    exact siftdownAux_total lt P hlt newitem startpos pos (heap.set pos newitem) pos
      (by simp; omega)
      (fun x hx => (List.mem_or_eq_of_mem_set hx).elim (hP x) (fun he => he ▸ hnew)) hnew
  | fuel + 1, heap, pos, hend, hpos, hP, hnew => by
    simp only [siftupAux]
    by_cases hc : 2 * pos + 1 < endpos
    · rw [if_pos hc]
      have hcP : P (heap.getD (2 * pos + 1) newitem) := by
        rw [getD_eq_get _ _ (by omega)]
        exact hP _ (List.getElem_mem ..)
      have hsetP : ∀ (c2 : Nat), c2 < endpos →
          ∀ x ∈ heap.set pos (heap.getD c2 newitem), P x := by
        intro c2 hc2 x hx
        rcases List.mem_or_eq_of_mem_set hx with h1 | h1
        · exact hP x h1
        · subst h1
          rw [getD_eq_get _ _ (by omega)]
          exact hP _ (List.getElem_mem ..)
      by_cases hr : 2 * pos + 1 + 1 < endpos
      · have hrP : P (heap.getD (2 * pos + 1 + 1) newitem) := by
          rw [getD_eq_get _ _ (by omega)]
          exact hP _ (List.getElem_mem ..)
        rw [if_pos hr]
        cases hlt2 : lt (heap.getD (2 * pos + 1) newitem)
            (heap.getD (2 * pos + 1 + 1) newitem) with
        | none => exact absurd hlt2 (hlt _ _ hcP hrP)
        | some b =>
          exact siftupAux_total lt P hlt newitem endpos startpos fuel _ _
            (by simpa using hend) (by split <;> omega)
            (hsetP _ (by split <;> omega)) hnew
      · rw [if_neg hr]
        exact siftupAux_total lt P hlt newitem endpos startpos fuel _ _
          (by simpa using hend) (by split <;> omega)
          (hsetP _ (by split <;> omega)) hnew
    · rw [if_neg hc]
      exact siftdownAux_total lt P hlt newitem startpos pos (heap.set pos newitem) pos
        (by simp; omega)
        (fun x hx => (List.mem_or_eq_of_mem_set hx).elim (hP x) (fun he => he ▸ hnew)) hnew

theorem heappush_total {α : Type} (lt : α → α → Option Bool) (P : α → Prop)
    (hlt : ∀ a b, P a → P b → lt a b ≠ none) (heap : List α) (item : α)
    (hP : ∀ x ∈ heap, P x) (hitem : P item) :
    ∃ out, heappush lt heap item = some out ∧ ∀ x ∈ out, P x := by
  obtain ⟨out, hout⟩ := siftdownAux_total lt P hlt item 0 heap.length (heap ++ [item])
    heap.length (by simp)
    (by
      intro x hx
      rcases List.mem_append.mp hx with h1 | h1
      · exact hP x h1
      · simpa using (List.mem_singleton.mp h1) ▸ hitem) hitem
  refine ⟨out, hout, ?_⟩
  intro x hx
  have hperm := heappush_perm lt heap item out hout
  rcases List.mem_cons.mp (hperm.mem_iff.mp hx) with h1 | h1
  · exact h1 ▸ hitem
  · exact hP x h1

theorem heappop_total {α : Type} (lt : α → α → Option Bool) (P : α → Prop)
    (hlt : ∀ a b, P a → P b → lt a b ≠ none) (heap : List α)
    (hne : heap ≠ []) (hP : ∀ x ∈ heap, P x) :
    ∃ r out, heappop lt heap = some (r, out) ∧ P r ∧ ∀ x ∈ out, P x := by
  have hlastP : P (heap.getLast hne) := hP _ (List.getLast_mem hne)
  have hdropP : ∀ x ∈ heap.dropLast, P x := fun x hx => hP x (List.dropLast_subset _ hx)
  unfold heappop
  rw [List.getLast?_eq_getLast heap hne]
  dsimp only
  by_cases hre : heap.dropLast.isEmpty
  · rw [if_pos hre]
    exact ⟨_, _, rfl, hlastP, by simp [List.isEmpty_iff.mp hre]⟩
  · rw [if_neg hre]
    have hrne : heap.dropLast ≠ [] := fun he => hre (by simp [he])
    have hrlen : 0 < heap.dropLast.length := List.length_pos.mpr hrne
    have hsetP : ∀ x ∈ heap.dropLast.set 0 (heap.getLast hne), P x := by
      intro x hx
      rcases List.mem_or_eq_of_mem_set hx with h1 | h1
      · exact hdropP x h1
      · exact h1 ▸ hlastP
    obtain ⟨out, hout⟩ := siftupAux_total lt P hlt (heap.getLast hne)
      heap.dropLast.length 0 heap.dropLast.length (heap.dropLast.set 0 (heap.getLast hne))
      0 (by simp) hrlen hsetP hlastP
    rw [hout]
    refine ⟨_, _, rfl, ?_, ?_⟩
    · rw [getD_eq_get _ _ hrlen]
      exact hdropP _ (List.getElem_mem ..)
    · intro x hx
      have hperm := siftupAux_perm lt (heap.getLast hne) heap.dropLast.length 0
        heap.dropLast.length (heap.dropLast.set 0 (heap.getLast hne)) 0 out (by simp)
        hrlen hout
      rcases List.mem_or_eq_of_mem_set (hperm.mem_iff.mp hx) with h1 | h1
      · exact hsetP x h1
      · exact h1 ▸ hlastP

/-! ## The distance gate -/

theorem popBreak_eq_false_iff (j : Nat) (d : ℚ) :
    popBreak j d = false ↔ gateAccepts j d := by
  by_cases h3 : j < 3
  · simp [popBreak, gateAccepts, h3, Nat.not_le_of_lt h3, not_lt]
  · simp [popBreak, gateAccepts, h3, Nat.le_of_not_lt h3, not_lt]

/-! ## The accept step -/

theorem acceptStep_getD_i (st : List Municipality) {i k : Nat} (d : ℚ)
    (hki : k ≠ i) (hi : i < st.length) :
    (acceptStep st i k d).getD i default =
      { st.getD i default with
        edges := (st.getD i default).edges ++
          [⟨(st.getD i default).code, (st.getD k default).code, d⟩],
        _neighbors := (st.getD i default)._neighbors.insert
          (st.getD k default).code } := by
  unfold acceptStep
  rw [getD_set_ne _ _ _ hki, getD_set_self _ _ _ hi]

theorem acceptStep_getD_k (st : List Municipality) {i k : Nat} (d : ℚ)
    (hik : i ≠ k) (hk : k < st.length) :
    (acceptStep st i k d).getD k default =
      { st.getD k default with
        edges := (st.getD k default).edges ++
          [⟨(st.getD k default).code, (st.getD i default).code, d⟩],
        _neighbors := (st.getD k default)._neighbors.insert
          (st.getD i default).code } := by
  unfold acceptStep
  rw [getD_set_self _ _ _ (by simpa using hk), getD_set_ne _ _ _ hik]

theorem acceptStep_getD_other (st : List Municipality) {i k p : Nat} (d : ℚ)
    (hip : i ≠ p) (hkp : k ≠ p) :
    (acceptStep st i k d).getD p default = st.getD p default := by
  unfold acceptStep
  rw [getD_set_ne _ _ _ hkp, getD_set_ne _ _ _ hip]

theorem acceptStep_length (st : List Municipality) (i k : Nat) (d : ℚ) :
    (acceptStep st i k d).length = st.length := by
  simp [acceptStep]

theorem getD_set_preserve (st : List Municipality) (q : Nat) (x : Municipality)
    (p : Nat) (hcode : x.code = (st.getD q default).code)
    (hlat : x.lat = (st.getD q default).lat)
    (hlon : x.lon = (st.getD q default).lon) :
    ((st.set q x).getD p default).code = (st.getD p default).code ∧
    ((st.set q x).getD p default).lat = (st.getD p default).lat ∧
    ((st.set q x).getD p default).lon = (st.getD p default).lon := by
  by_cases hpq : q = p
  · subst hpq
    by_cases hq : q < st.length
    · rw [getD_set_self _ _ _ hq]
      exact ⟨hcode, hlat, hlon⟩
    · rw [List.set_eq_of_length_le (by omega)]
      exact ⟨rfl, rfl, rfl⟩
  · rw [getD_set_ne _ _ _ hpq]
    exact ⟨rfl, rfl, rfl⟩

theorem getD_set2_preserve (st : List Municipality) (q1 q2 : Nat)
    (x1 x2 : Municipality) (p : Nat)
    (h1 : x1.code = (st.getD q1 default).code ∧
      x1.lat = (st.getD q1 default).lat ∧ x1.lon = (st.getD q1 default).lon)
    (h2 : x2.code = ((st.set q1 x1).getD q2 default).code ∧
      x2.lat = ((st.set q1 x1).getD q2 default).lat ∧
      x2.lon = ((st.set q1 x1).getD q2 default).lon) :
    (((st.set q1 x1).set q2 x2).getD p default).code = (st.getD p default).code ∧
    (((st.set q1 x1).set q2 x2).getD p default).lat = (st.getD p default).lat ∧
    (((st.set q1 x1).set q2 x2).getD p default).lon = (st.getD p default).lon := by
  have ha := getD_set_preserve (st.set q1 x1) q2 x2 p h2.1 h2.2.1 h2.2.2
  have hb := getD_set_preserve st q1 x1 p h1.1 h1.2.1 h1.2.2
  exact ⟨ha.1.trans hb.1, ha.2.1.trans hb.2.1, ha.2.2.trans hb.2.2⟩

theorem acceptStep_skel (st : List Municipality) (i k : Nat) (d : ℚ) (p : Nat) :
    ((acceptStep st i k d).getD p default).code = (st.getD p default).code ∧
    ((acceptStep st i k d).getD p default).lat = (st.getD p default).lat ∧
    ((acceptStep st i k d).getD p default).lon = (st.getD p default).lon := by
  unfold acceptStep
  exact getD_set2_preserve st i k _ _ p ⟨rfl, rfl, rfl⟩ ⟨rfl, rfl, rfl⟩

/-! ## The pop loop: length, skeleton, gate and per-iteration bound -/

theorem popLoopAux_length (i : Nat) :
    ∀ (fuel : Nat) (st : List Municipality) (heap : List (ℚ × Nat)) (j : Nat)
      (st2 : List Municipality), popLoopAux i fuel st heap j = some st2 →
      st2.length = st.length
  | 0, st, heap, j, st2, h => by
    simp only [popLoopAux] at h
    injection h with h
    rw [← h]
  | fuel + 1, st, heap, j, st2, h => by
    simp only [popLoopAux] at h
    split at h
    · injection h with h; rw [← h]
    · split at h
      · cases h
      next d k heap2 _ =>
        split at h
        · injection h with h; rw [← h]
        · have := popLoopAux_length i fuel _ _ _ _ h
          rw [this, acceptStep_length]

theorem popLoopAux_skel (i : Nat) :
    ∀ (fuel : Nat) (st : List Municipality) (heap : List (ℚ × Nat)) (j : Nat)
      (st2 : List Municipality) (p : Nat), popLoopAux i fuel st heap j = some st2 →
      (st2.getD p default).code = (st.getD p default).code ∧
      (st2.getD p default).lat = (st.getD p default).lat ∧
      (st2.getD p default).lon = (st.getD p default).lon
  | 0, st, heap, j, st2, p, h => by
    simp only [popLoopAux] at h
    injection h with h
    rw [← h]
    exact ⟨rfl, rfl, rfl⟩
  | fuel + 1, st, heap, j, st2, p, h => by
    simp only [popLoopAux] at h
    split at h
    · injection h with h; rw [← h]; exact ⟨rfl, rfl, rfl⟩
    · split at h
      · cases h
      next d k heap2 _ =>
        split at h
        · injection h with h; rw [← h]; exact ⟨rfl, rfl, rfl⟩
        · have h2 := popLoopAux_skel i fuel _ _ _ _ p h
          have h1 := acceptStep_skel st i k d p
          exact ⟨h2.1.trans h1.1, h2.2.1.trans h1.2.1, h2.2.2.trans h1.2.2⟩

/-- Gate plus per-iteration bound for the pop loop: the edges appended to the
primary index `i` during its own iteration form a suffix of at most `fuel`
new edges, and the edge accepted at loop rank `j + r` passes the
specification gate at that rank.  Edges appended to the secondaries are not
counted here. -/
theorem popLoopAux_gate (i : Nat) :
    ∀ (fuel : Nat) (st : List Municipality) (heap : List (ℚ × Nat)) (j : Nat)
      (st2 : List Municipality), i < st.length → (∀ x ∈ heap, x.2 ≠ i) →
      popLoopAux i fuel st heap j = some st2 →
      ∃ newEdges, (st2.getD i default).edges = (st.getD i default).edges ++ newEdges ∧
        newEdges.length ≤ fuel ∧
        ∀ r, (hr : r < newEdges.length) →
          gateAccepts (j + r) ((newEdges.get ⟨r, hr⟩).distance)
  | 0, st, heap, j, st2, _, _, h => by
    simp only [popLoopAux] at h
    injection h with h
    exact ⟨[], by rw [← h]; simp, by simp, by intro r hr; cases hr⟩
  | fuel + 1, st, heap, j, st2, hi, hne, h => by
    simp only [popLoopAux] at h
    split at h
    · injection h with h
      exact ⟨[], by rw [← h]; simp, by simp, by intro r hr; cases hr⟩
    · split at h
      · cases h
      next d k heap2 hpop =>
        split at h
        · injection h with h
          exact ⟨[], by rw [← h]; simp, by simp, by intro r hr; cases hr⟩
        next hbreak =>
          have hmem : ((d, k) : ℚ × Nat) ∈ heap :=
            (heappop_perm tupleLt heap _ _ hpop).mem_iff.mp (List.mem_cons_self ..)
          have hki : k ≠ i := hne _ hmem
          have hne2 : ∀ x ∈ heap2, x.2 ≠ i := fun x hx =>
            hne x ((heappop_perm tupleLt heap _ _ hpop).mem_iff.mp
              (List.mem_cons_of_mem _ hx))
          obtain ⟨new2, hnew2, hlen2, hgate2⟩ := popLoopAux_gate i fuel _ _ _ _
            (by rw [acceptStep_length]; exact hi) hne2 h
          rw [acceptStep_getD_i st d hki hi] at hnew2
          refine ⟨⟨(st.getD i default).code, (st.getD k default).code, d⟩ :: new2,
            ?_, by simpa using hlen2, ?_⟩
          · rw [hnew2]
            simp
          · intro r hr
            cases r with
            | zero =>
              have hgate : gateAccepts j d := (popBreak_eq_false_iff j d).mp
                (Bool.not_eq_true _ ▸ (by simpa using hbreak))
              simpa using hgate
            | succ r2 =>
              have := hgate2 r2 (by simpa using hr)
              have harith : j + 1 + r2 = j + (r2 + 1) := by omega
              rw [harith] at this
              simpa using this

/-! ## Invariant preservation -/

theorem codes_ne_of_nodup {st : List Municipality}
    (hnd : (st.map (fun m => m.code)).Nodup) {p q : Nat}
    (hp : p < st.length) (hq : q < st.length) (hpq : p ≠ q) :
    (st.getD p default).code ≠ (st.getD q default).code := by
  intro he
  have hp2 : p < (st.map (fun m => m.code)).length := by simpa using hp
  have hq2 : q < (st.map (fun m => m.code)).length := by simpa using hq
  have heq : (st.map (fun m => m.code))[p] = (st.map (fun m => m.code))[q] := by
    rw [List.getElem_map, List.getElem_map]
    rw [getD_eq_get _ _ hp, getD_eq_get _ _ hq] at he
    exact he
  exact hpq ((List.Nodup.getElem_inj_iff hnd).mp heq)

theorem map_code_set (st : List Municipality) (p : Nat) (x : Municipality)
    (hcode : x.code = (st.getD p default).code) :
    (st.set p x).map (fun m => m.code) = st.map (fun m => m.code) := by
  by_cases hp : p < st.length
  · rw [List.map_set]
    have hx : x.code = (st.map (fun m => m.code)).getD p "" := by
      rw [hcode, getD_eq_get _ _ hp, getD_eq_get _ _ (by simpa using hp),
        List.getElem_map]
    rw [hx, set_getD_self _ _ _ (by simpa using hp)]
  · rw [List.set_eq_of_length_le (by omega)]

theorem map_code_set2 (st : List Municipality) (q1 q2 : Nat) (x1 x2 : Municipality)
    (h1 : x1.code = (st.getD q1 default).code)
    (h2 : x2.code = ((st.set q1 x1).getD q2 default).code) :
    ((st.set q1 x1).set q2 x2).map (fun m => m.code) = st.map (fun m => m.code) :=
  (map_code_set _ q2 x2 h2).trans (map_code_set st q1 x1 h1)

theorem acceptStep_codes (st : List Municipality) (i k : Nat) (d : ℚ) :
    (acceptStep st i k d).map (fun m => m.code) = st.map (fun m => m.code) := by
  unfold acceptStep
  exact map_code_set2 st i k _ _ rfl rfl

theorem acceptStep_inv (st : List Municipality) (i k : Nat) (d : ℚ)
    (hi : i < st.length) (hk : k < st.length) (hik : i ≠ k)
    (hknb : (st.getD k default).code ∉ (st.getD i default)._neighbors)
    (hinv : Inv st) : Inv (acceptStep st i k d) := by
  have hlen := acceptStep_length st i k d
  have hgi := acceptStep_getD_i st d (Ne.symm hik) hi
  have hgk := acceptStep_getD_k st d hik hk
  have hgo : ∀ p, p ≠ i → p ≠ k →
      (acceptStep st i k d).getD p default = st.getD p default :=
    fun p hpi hpk => acceptStep_getD_other st d (Ne.symm hpi) (Ne.symm hpk)
  have hc12 : (st.getD i default).code ≠ (st.getD k default).code :=
    codes_ne_of_nodup hinv.codes_nodup hi hk hik
  have hinb : (st.getD i default).code ∉ (st.getD k default)._neighbors := by
    intro hmem
    exact hknb ((hinv.nbrs_symm k i hk hi).mp hmem)
  have hcode : ∀ r, ((acceptStep st i k d).getD r default).code =
      (st.getD r default).code := fun r => (acceptStep_skel st i k d r).1
  have hto_sub : ∀ r, r < st.length →
      ∀ x ∈ (st.getD r default).edges.map (fun e => e.toMuniCode),
        x ∈ (st.getD r default)._neighbors := by
    intro r hr x hx
    rcases List.mem_map.mp hx with ⟨e, he, hex⟩
    exact hex ▸ hinv.to_mem_nbrs r hr e he
  have hsub : ∀ r, (st.getD r default).edges ⊆
      ((acceptStep st i k d).getD r default).edges := by
    intro r
    by_cases hri : r = i
    · subst hri
      rw [hgi]
      exact List.subset_append_left ..
    · by_cases hrk : r = k
      · subst hrk
        rw [hgk]
        exact List.subset_append_left ..
      · rw [hgo r hri hrk]
        exact fun x hx => hx
  constructor
  case codes_nodup =>
    rw [acceptStep_codes]
    exact hinv.codes_nodup
  case from_eq =>
    intro p hp e he
    rw [hlen] at hp
    by_cases hpi : p = i
    · subst hpi
      rw [hgi] at he ⊢
      rcases List.mem_append.mp he with h1 | h1
      · exact hinv.from_eq p hp e h1
      · rw [List.mem_singleton.mp h1]
    · by_cases hpk : p = k
      · subst hpk
        rw [hgk] at he ⊢
        rcases List.mem_append.mp he with h1 | h1
        · exact hinv.from_eq p hp e h1
        · rw [List.mem_singleton.mp h1]
      · rw [hgo p hpi hpk] at he ⊢
        exact hinv.from_eq p hp e he
  case to_nodup =>
    intro p hp
    rw [hlen] at hp
    by_cases hpi : p = i
    · subst hpi
      rw [hgi]
      simp only [List.map_append, List.map_cons, List.map_nil, List.nodup_append]
      refine ⟨hinv.to_nodup p hp, by simp, ?_⟩
      intro x hx
      simp only [List.mem_cons, List.not_mem_nil, or_false]
      intro hxe
      subst hxe
      exact hknb (hto_sub p hp _ hx)
    · by_cases hpk : p = k
      · subst hpk
        rw [hgk]
        simp only [List.map_append, List.map_cons, List.map_nil, List.nodup_append]
        refine ⟨hinv.to_nodup p hp, by simp, ?_⟩
        intro x hx
        simp only [List.mem_cons, List.not_mem_nil, or_false]
        intro hxe
        subst hxe
        exact hinb (hto_sub p hp _ hx)
      · rw [hgo p hpi hpk]
        exact hinv.to_nodup p hp
  case to_mem_nbrs =>
    intro p hp e he
    rw [hlen] at hp
    by_cases hpi : p = i
    · subst hpi
      rw [hgi] at he ⊢
      rcases List.mem_append.mp he with h1 | h1
      · exact List.mem_insert_iff.mpr (Or.inr (hinv.to_mem_nbrs p hp e h1))
      · rw [List.mem_singleton.mp h1]
        exact List.mem_insert_iff.mpr (Or.inl rfl)
    · by_cases hpk : p = k
      · subst hpk
        rw [hgk] at he ⊢
        rcases List.mem_append.mp he with h1 | h1
        · exact List.mem_insert_iff.mpr (Or.inr (hinv.to_mem_nbrs p hp e h1))
        · rw [List.mem_singleton.mp h1]
          exact List.mem_insert_iff.mpr (Or.inl rfl)
      · rw [hgo p hpi hpk] at he ⊢
        exact hinv.to_mem_nbrs p hp e he
  case self_not_nbr =>
    intro p hp
    rw [hlen] at hp
    by_cases hpi : p = i
    · subst hpi
      rw [hgi]
      intro hmem
      rcases List.mem_insert_iff.mp hmem with h1 | h1
      · exact hc12 h1
      · exact hinv.self_not_nbr p hp h1
    · by_cases hpk : p = k
      · subst hpk
        rw [hgk]
        intro hmem
        rcases List.mem_insert_iff.mp hmem with h1 | h1
        · exact hc12 h1.symm
        · exact hinv.self_not_nbr p hp h1
      · rw [hgo p hpi hpk]
        exact hinv.self_not_nbr p hp
  case nbrs_symm =>
    have hmemA : ∀ r s, r < st.length → s < st.length →
        ((st.getD s default).code ∈
            ((acceptStep st i k d).getD r default)._neighbors ↔
          ((st.getD s default).code ∈ (st.getD r default)._neighbors ∨
            (r = i ∧ s = k) ∨ (r = k ∧ s = i))) := by
      intro r s hr hs
      by_cases hri : r = i
      · subst hri
        rw [hgi]
        simp only [List.mem_insert_iff]
        constructor
        · rintro (h1 | h1)
          · refine Or.inr (Or.inl ⟨by trivial, ?_⟩)
            by_contra hsk
            exact (codes_ne_of_nodup hinv.codes_nodup hs hk hsk) h1
          · exact Or.inl h1
        · rintro (h1 | ⟨_, rfl⟩ | ⟨hik2, _⟩)
          · exact Or.inr h1
          · exact Or.inl rfl
          · exact absurd hik2 hik
      · by_cases hrk : r = k
        · subst hrk
          rw [hgk]
          simp only [List.mem_insert_iff]
          constructor
          · rintro (h1 | h1)
            · refine Or.inr (Or.inr ⟨by trivial, ?_⟩)
              by_contra hsi
              exact (codes_ne_of_nodup hinv.codes_nodup hs hi hsi) h1
            · exact Or.inl h1
          · rintro (h1 | ⟨hik2, _⟩ | ⟨_, rfl⟩)
            · exact Or.inr h1
            · exact absurd hik2 (Ne.symm hik)
            · exact Or.inl rfl
        · rw [hgo r hri hrk]
          simp [hri, hrk]
    intro p q hp hq
    rw [hlen] at hp hq
    rw [hcode p, hcode q]
    rw [hmemA p q hp hq, hmemA q p hq hp, hinv.nbrs_symm p q hp hq]
    tauto
  case mutual_edge =>
    intro p hp e he
    rw [hlen] at hp
    have hold : ∀ e2 ∈ (st.getD p default).edges,
        ∃ q, q < (acceptStep st i k d).length ∧
          ((acceptStep st i k d).getD q default).code = e2.toMuniCode ∧
          MunicipalityEdge.mk e2.toMuniCode e2.fromMuniCode e2.distance ∈
            ((acceptStep st i k d).getD q default).edges := by
      intro e2 he2
      obtain ⟨q, hq, hqc, hqe⟩ := hinv.mutual_edge p hp e2 he2
      exact ⟨q, by rw [hlen]; exact hq, (hcode q).trans hqc, hsub q hqe⟩
    by_cases hpi : p = i
    · subst hpi
      rw [hgi] at he
      rcases List.mem_append.mp he with h1 | h1
      · exact hold e h1
      · rw [List.mem_singleton.mp h1]
        refine ⟨k, by rw [hlen]; exact hk, hcode k, ?_⟩
        rw [hgk]
        exact List.mem_append.mpr (Or.inr (List.mem_singleton.mpr rfl))
    · by_cases hpk : p = k
      · subst hpk
        rw [hgk] at he
        rcases List.mem_append.mp he with h1 | h1
        · exact hold e h1
        · rw [List.mem_singleton.mp h1]
          refine ⟨i, by rw [hlen]; exact hi, hcode i, ?_⟩
          rw [hgi]
          exact List.mem_append.mpr (Or.inr (List.mem_singleton.mpr rfl))
      · rw [hgo p hpi hpk] at he
        exact hold e he

theorem popLoopAux_inv (i : Nat) :
    ∀ (fuel : Nat) (st : List Municipality) (heap : List (ℚ × Nat)) (j : Nat)
      (st2 : List Municipality), i < st.length → Inv st → PopHeapOK st i heap →
      popLoopAux i fuel st heap j = some st2 → Inv st2
  | 0, st, heap, j, st2, _, hinv, _, h => by
    simp only [popLoopAux] at h
    injection h with h
    exact h ▸ hinv
  | fuel + 1, st, heap, j, st2, hi, hinv, hOK, h => by
    simp only [popLoopAux] at h
    split at h
    · injection h with h
      exact h ▸ hinv
    · split at h
      · cases h
      next d k heap2 hpop =>
        split at h
        · injection h with h
          exact h ▸ hinv
        · have hperm := heappop_perm tupleLt heap _ _ hpop
          have hmem : ((d, k) : ℚ × Nat) ∈ heap :=
            hperm.mem_iff.mp (List.mem_cons_self ..)
          obtain ⟨hk, hki, hknb⟩ := hOK.2 _ hmem
          have hstep := acceptStep_inv st i k d hi hk (Ne.symm hki) hknb hinv
          have hlen := acceptStep_length st i k d
          have hsndperm : (k :: heap2.map Prod.snd).Perm (heap.map Prod.snd) := by
            have := hperm.map Prod.snd
            simpa using this
          have hsndnd : (k :: heap2.map Prod.snd).Nodup :=
            (hsndperm.nodup_iff).mpr hOK.1
          have hknotin : k ∉ heap2.map Prod.snd := (List.nodup_cons.mp hsndnd).1
          have hOK2 : PopHeapOK (acceptStep st i k d) i heap2 := by
            refine ⟨(List.nodup_cons.mp hsndnd).2, ?_⟩
            intro x hx
            have hxmem : x ∈ heap := hperm.mem_iff.mp (List.mem_cons_of_mem _ hx)
            obtain ⟨hx1, hx2, hx3⟩ := hOK.2 x hxmem
            have hxk : x.2 ≠ k := by
              intro hxe
              exact hknotin (hxe ▸ List.mem_map_of_mem Prod.snd hx)
            refine ⟨by rw [hlen]; exact hx1, hx2, ?_⟩
            rw [(acceptStep_skel st i k d x.2).1,
              acceptStep_getD_i st d hki hi]
            intro hmem2
            rcases List.mem_insert_iff.mp hmem2 with h1 | h1
            · exact (codes_ne_of_nodup hinv.codes_nodup hx1 hk hxk) h1
            · exact hx3 h1
          exact popLoopAux_inv i fuel _ _ _ _ (by rw [hlen]; exact hi) hstep hOK2 h

theorem gatherAux_heapOK (dist : Municipality → Municipality → ℚ)
    (st : List Municipality) (i : Nat) :
    ∀ (l : List Nat) (heap out : List (ℚ × Nat)),
      l.Nodup → (∀ j ∈ l, j < st.length) → (∀ x ∈ heap, x.2 ∉ l) →
      PopHeapOK st i heap → gatherAux dist st i l heap = some out →
      PopHeapOK st i out
  | [], heap, out, _, _, _, hOK, h => by
    simp only [gatherAux] at h
    injection h with h
    exact h ▸ hOK
  | j :: rest, heap, out, hnd, hbound, hnl, hOK, h => by
    simp only [gatherAux] at h
    have hndr := (List.nodup_cons.mp hnd).2
    have hjr := (List.nodup_cons.mp hnd).1
    have hboundr : ∀ p ∈ rest, p < st.length :=
      fun p hp => hbound p (List.mem_cons_of_mem _ hp)
    split at h
    · exact gatherAux_heapOK dist st i rest heap out hndr hboundr
        (fun x hx hin => hnl x hx (List.mem_cons_of_mem _ hin)) hOK h
    · split at h
      · exact gatherAux_heapOK dist st i rest heap out hndr hboundr
          (fun x hx hin => hnl x hx (List.mem_cons_of_mem _ hin)) hOK h
      · split at h
        · cases h
        next h2 hpush =>
          have hperm := heappush_perm tupleLt heap _ _ hpush
          refine gatherAux_heapOK dist st i rest h2 out hndr hboundr ?_ ?_ h
          · intro x hx hin
            rcases List.mem_cons.mp (hperm.mem_iff.mp hx) with h1 | h1
            · rw [h1] at hin
              exact hjr hin
            · exact hnl x h1 (List.mem_cons_of_mem _ hin)
          · constructor
            · have hsndperm : (h2.map Prod.snd).Perm
                  (j :: heap.map Prod.snd) := by
                have := hperm.map Prod.snd
                simpa using this
              refine hsndperm.nodup_iff.mpr (List.nodup_cons.mpr ⟨?_, hOK.1⟩)
              intro hjmem
              rcases List.mem_map.mp hjmem with ⟨x, hx, hxj⟩
              exact hnl x hx (hxj ▸ List.mem_cons_self ..)
            · intro x hx
              rcases List.mem_cons.mp (hperm.mem_iff.mp hx) with h1 | h1
              · rw [h1]
                refine ⟨hbound j (List.mem_cons_self ..), ?_, ?_⟩
                · rename_i hij _ _
                  exact fun hje => hij (hje ▸ rfl)
                · rename_i hcode _
                  exact hcode
              · exact hOK.2 x h1

theorem v2Aux_inv (dist : Municipality → Municipality → ℚ) :
    ∀ (l : List Nat) (st st2 : List Municipality), (∀ i ∈ l, i < st.length) →
      Inv st → v2Aux dist l st = some st2 → Inv st2 ∧ st2.length = st.length
  | [], st, st2, _, hinv, h => by
    simp only [v2Aux] at h
    injection h with h
    exact ⟨h ▸ hinv, h ▸ rfl⟩
  | i :: rest, st, st2, hbound, hinv, h => by
    simp only [v2Aux] at h
    split at h
    · cases h
    next heap hgather =>
      split at h
      · cases h
      next stM hpop =>
        have hOK := gatherAux_heapOK dist st i (List.range st.length) [] heap
          (List.nodup_range _) (by simp) (by simp) ⟨by simp, by simp⟩ hgather
        have hi : i < st.length := hbound i (List.mem_cons_self ..)
        have hinvM := popLoopAux_inv i MAX_EDGES st heap 0 stM hi hinv hOK hpop
        have hlenM := popLoopAux_length i MAX_EDGES st heap 0 stM hpop
        obtain ⟨hi2, hl2⟩ := v2Aux_inv dist rest stM st2
          (fun p hp => by rw [hlenM]; exact hbound p (List.mem_cons_of_mem _ hp))
          hinvM h
        exact ⟨hi2, hl2.trans hlenM⟩

/-- The full canonical assembler preserves the invariant from an
ingestion-clean initial state. -/
theorem v2_inv (dist : Municipality → Municipality → ℚ)
    (init st2 : List Municipality) (hInit : InitOK init)
    (h : addEdgesToMunicipalitiesV2 dist init = some st2) :
    Inv st2 ∧ st2.length = init.length := by
  have hmem : ∀ p, p < init.length → init.getD p default ∈ init := by
    intro p hp
    rw [getD_eq_get _ _ hp]
    exact List.getElem_mem ..
  have hinv0 : Inv init := by
    constructor
    case codes_nodup => exact hInit.1
    case from_eq =>
      intro p hp e he
      rw [(hInit.2 _ (hmem p hp)).1] at he
      cases he
    case to_nodup =>
      intro p hp
      rw [(hInit.2 _ (hmem p hp)).1]
      exact List.nodup_nil
    case to_mem_nbrs =>
      intro p hp e he
      rw [(hInit.2 _ (hmem p hp)).1] at he
      cases he
    case self_not_nbr =>
      intro p hp
      rw [(hInit.2 _ (hmem p hp)).2]
      exact List.not_mem_nil _
    case nbrs_symm =>
      intro p q hp hq
      rw [(hInit.2 _ (hmem p hp)).2, (hInit.2 _ (hmem q hq)).2]
      simp
    case mutual_edge =>
      intro p hp e he
      rw [(hInit.2 _ (hmem p hp)).1] at he
      cases he
  exact v2Aux_inv dist (List.range init.length) init st2 (by simp) hinv0 h

/-! ## Totality of the assembler under pairwise-distinct candidate rows -/

theorem gatherAux_total (dist : Municipality → Municipality → ℚ)
    (st : List Municipality) (i : Nat) (P : (ℚ × Nat) → Prop)
    (hlt : ∀ a b, P a → P b → tupleLt a b ≠ none)
    (hpush : ∀ j, j < st.length → i ≠ j →
      P (dist (st.getD i default) (st.getD j default), j)) :
    ∀ (l : List Nat) (heap : List (ℚ × Nat)), (∀ j ∈ l, j < st.length) →
      (∀ x ∈ heap, P x) →
      ∃ out, gatherAux dist st i l heap = some out ∧ ∀ x ∈ out, P x
  | [], heap, _, hheap => ⟨heap, rfl, hheap⟩
  | j :: rest, heap, hbound, hheap => by
    simp only [gatherAux]
    have hboundr : ∀ p ∈ rest, p < st.length :=
      fun p hp => hbound p (List.mem_cons_of_mem _ hp)
    by_cases hij : i = j
    · rw [if_pos hij]
      exact gatherAux_total dist st i P hlt hpush rest heap hboundr hheap
    · rw [if_neg hij]
      by_cases hnb : (st.getD j default).code ∈ (st.getD i default)._neighbors
      · rw [if_pos hnb]
        exact gatherAux_total dist st i P hlt hpush rest heap hboundr hheap
      · rw [if_neg hnb]
        obtain ⟨h2, hpusheq, hP2⟩ := heappush_total tupleLt P hlt heap
          (dist (st.getD i default) (st.getD j default), j) hheap
          (hpush j (hbound j (List.mem_cons_self ..)) hij)
        rw [hpusheq]
        exact gatherAux_total dist st i P hlt hpush rest h2 hboundr hP2

theorem popLoopAux_total (i : Nat) (P : (ℚ × Nat) → Prop)
    (hlt : ∀ a b, P a → P b → tupleLt a b ≠ none) :
    ∀ (fuel : Nat) (st : List Municipality) (heap : List (ℚ × Nat)) (j : Nat),
      (∀ x ∈ heap, P x) → ∃ st2, popLoopAux i fuel st heap j = some st2
  | 0, st, heap, j, _ => ⟨st, rfl⟩
  | fuel + 1, st, heap, j, hheap => by
    simp only [popLoopAux]
    by_cases hem : heap.isEmpty
    · rw [if_pos hem]
      exact ⟨st, rfl⟩
    · rw [if_neg hem]
      obtain ⟨r, heap2, hpop, hrP, hP2⟩ := heappop_total tupleLt P hlt heap
        (fun he => hem (by simp [he])) hheap
      obtain ⟨d, k⟩ := r
      rw [hpop]
      dsimp only
      by_cases hbr : popBreak j d
      · rw [if_pos hbr]
        exact ⟨st, rfl⟩
      · rw [if_neg hbr]
        exact popLoopAux_total i P hlt fuel _ heap2 (j + 1) hP2

theorem sameSkeleton_trans {st1 st2 st3 : List Municipality}
    (h12 : sameSkeleton st1 st2) (h23 : sameSkeleton st2 st3) :
    sameSkeleton st1 st3 := by
  refine ⟨h23.1.trans h12.1, ?_⟩
  intro p hp
  have hl12 := h12.1
  have h2 := h23.2 p (by omega)
  have h1 := h12.2 p hp
  exact ⟨h2.1.trans h1.1, h2.2.1.trans h1.2.1, h2.2.2.trans h1.2.2⟩

theorem v2Aux_total (dist : Municipality → Municipality → ℚ)
    (init : List Municipality) (hcd : CoordDist dist)
    (hrow : RowDistinct dist init) :
    ∀ (l : List Nat) (st : List Municipality), (∀ p ∈ l, p < init.length) →
      sameSkeleton init st → ∃ st2, v2Aux dist l st = some st2
  | [], st, _, _ => ⟨st, rfl⟩
  | i :: rest, st, hbound, hskel => by
    simp only [v2Aux]
    have hi : i < init.length := hbound i (List.mem_cons_self ..)
    have hlen : st.length = init.length := hskel.1
    have hdist2 : ∀ p q, p < init.length → q < init.length →
        dist (st.getD p default) (st.getD q default) =
          dist (init.getD p default) (init.getD q default) := by
      intro p q hp hq
      have h1 := hskel.2 p hp
      have h2 := hskel.2 q hq
      exact hcd _ _ _ _ h1.2.1 h1.2.2 h2.2.1 h2.2.2
    set P : (ℚ × Nat) → Prop := fun x => x.2 < init.length ∧ i ≠ x.2 ∧
      x.1 = dist (init.getD i default) (init.getD x.2 default) with hP
    have hlt : ∀ a b, P a → P b → tupleLt a b ≠ none := by
      intro a b ha hb
      unfold tupleLt
      by_cases h1 : a.1 = b.1
      · rw [if_pos h1]
        by_cases h2 : a.2 = b.2
        · rw [if_pos h2]
          exact Option.some_ne_none _
        · exfalso
          refine hrow ⟨i, hi⟩ ⟨a.2, ha.1⟩ ⟨b.2, hb.1⟩ h2
            (fun he => ha.2.1 he.symm) (fun he => hb.2.1 he.symm) ?_
          rw [← getD_eq_get init default hi, ← getD_eq_get init default ha.1,
            ← getD_eq_get init default hb.1]
          rw [← ha.2.2, ← hb.2.2]
          exact h1
      · rw [if_neg h1]
        exact Option.some_ne_none _
    have hpush : ∀ j, j < st.length → i ≠ j →
        P (dist (st.getD i default) (st.getD j default), j) := by
      intro j hj hij
      refine ⟨by omega, hij, ?_⟩
      show dist (st.getD i default) (st.getD j default) =
        dist (init.getD i default) (init.getD j default)
      exact hdist2 i j hi (by omega)
    obtain ⟨heap, hgather, hheapP⟩ := gatherAux_total dist st i P hlt hpush
      (List.range st.length) [] (fun j hj => List.mem_range.mp hj)
      (by intro x hx; cases hx)
    rw [show gatherCandidates dist st i = some heap from hgather]
    dsimp only
    obtain ⟨stM, hpop⟩ := popLoopAux_total i P hlt MAX_EDGES st heap 0 hheapP
    rw [show popLoop st i heap = some stM from hpop]
    dsimp only
    have hskelM : sameSkeleton init stM := by
      refine sameSkeleton_trans hskel ⟨popLoopAux_length i MAX_EDGES st heap 0 stM hpop, ?_⟩
      intro p hp
      exact popLoopAux_skel i MAX_EDGES st heap 0 stM p hpop
    exact v2Aux_total dist init hcd hrow rest stM
      (fun p hp => hbound p (List.mem_cons_of_mem _ hp)) hskelM

/-- The canonical assembler completes without a heap-comparison `TypeError`
whenever every primary's candidate distances are pairwise distinct. -/
theorem v2_total (dist : Municipality → Municipality → ℚ)
    (init : List Municipality) (hcd : CoordDist dist)
    (hrow : RowDistinct dist init) :
    ∃ st2, addEdgesToMunicipalitiesV2 dist init = some st2 := by
  unfold addEdgesToMunicipalitiesV2
  exact v2Aux_total dist init hcd hrow (List.range init.length) init
    (fun p hp => List.mem_range.mp hp) ⟨rfl, fun p hp => ⟨rfl, rfl, rfl⟩⟩

/-! ## The serializer -/

theorem serialize_attrs_false (l l2 : List PyMunicipality)
    (h : serializeMunicipalityDict l = some l2) :
    ∀ m ∈ l2, m.hasNeighborsAttr = false := by
  induction l generalizing l2 with
  | nil =>
    simp only [serializeMunicipalityDict] at h
    injection h with h
    subst h
    intro m hm
    cases hm
  | cons m rest ih =>
    simp only [serializeMunicipalityDict] at h
    split at h
    · cases h
    next m2 hm2 =>
      split at h
      · cases h
      next rest2 hrest2 =>
        injection h with h
        subst h
        intro x hx
        rcases List.mem_cons.mp hx with h1 | h1
        · subst h1
          unfold municipalityDictSerializer at hm2
          split at hm2
          · injection hm2 with hm2
            rw [← hm2]
          · cases hm2
        · exact ih rest2 hrest2 x h1

theorem serialize_none_of_false (l : List PyMunicipality) (hne : l ≠ [])
    (hall : ∀ m ∈ l, m.hasNeighborsAttr = false) :
    serializeMunicipalityDict l = none := by
  cases l with
  | nil => exact absurd rfl hne
  | cons m rest =>
    simp only [serializeMunicipalityDict]
    unfold municipalityDictSerializer
    rw [if_neg (by rw [hall m (List.mem_cons_self ..)]; exact Bool.false_ne_true)]

/-! ## The superseded `addEdge` -/

theorem addEdge_eq_self_of_not_admits (m : Municipality) (e : MunicipalityEdge)
    (h : ¬ addEdgeAdmits m e) : m.addEdge e = some m := by
  unfold Municipality.addEdge
  rw [if_neg h]

theorem addEdge_admits_under_capacity (m : Municipality) (e : MunicipalityEdge)
    (hadm : addEdgeAdmits m e) (hcap : m.edges.length < MAX_EDGES) :
    ∃ m2, m.addEdge e = some m2 ∧ m2.edges.length = m.edges.length + 1 ∧
      e ∈ m2.edges := by
  unfold Municipality.addEdge
  rw [if_pos hadm]
  obtain ⟨h1, hpush, _⟩ := heappush_total edgeLt (fun _ => True)
    (fun a b _ _ => Option.some_ne_none _) m.edges e (fun _ _ => trivial) trivial
  rw [hpush]
  dsimp only
  have hperm := heappush_perm edgeLt m.edges e h1 hpush
  have hlen : h1.length = m.edges.length + 1 := by
    rw [hperm.length_eq]
    simp
  rw [if_neg (by omega)]
  exact ⟨{ m with edges := h1 }, rfl, hlen, hperm.mem_iff.mpr (List.mem_cons_self ..)⟩

theorem addEdgeAdmits_iff_spec (m : Municipality) (e : MunicipalityEdge)
    (hmin : ∀ x ∈ m.edges, (m.edges.headD e).distance ≤ x.distance) :
    addEdgeAdmits m e ↔ addEdgeAdmitsSpec m e := by
  unfold addEdgeAdmits addEdgeAdmitsSpec
  refine and_congr Iff.rfl (or_congr Iff.rfl ?_)
  constructor
  · intro hgt
    cases he : m.edges with
    | nil =>
      rw [he] at hgt
      exact absurd hgt (lt_irrefl _)
    | cons a tl =>
      rw [he] at hmin hgt
      refine ⟨a, List.mem_cons_self .., ?_, ?_⟩
      · intro x hx
        simpa using hmin x hx
      · simpa using hgt
  · rintro ⟨s, hs, _, hslt⟩
    exact lt_of_le_of_lt (hmin s hs) hslt

theorem not_gateAccepts_of_gt_max {j : Nat} {d : ℚ} (h : MAX_DISTANCE < d) :
    ¬ gateAccepts j d := by
  intro hacc
  unfold gateAccepts at hacc
  have h2 : d ≤ MAX_DISTANCE := by
    split at hacc
    · calc d ≤ MAX_DISTANCE / 2 ^ j := hacc
        _ ≤ MAX_DISTANCE := by
          apply div_le_self (by norm_num [MAX_DISTANCE])
          exact one_le_pow₀ (by norm_num)
    · calc d ≤ MAX_DISTANCE / 3 ^ j := hacc
        _ ≤ MAX_DISTANCE := by
          apply div_le_self (by norm_num [MAX_DISTANCE])
          exact one_le_pow₀ (by norm_num)
  exact absurd h2 (not_le.mpr h)

/-! ## The haversine distance over `ℝ` -/

theorem radians_sub (x y : ℝ) : radians (x - y) = radians x - radians y := by
  unfold radians
  ring

theorem sin_sq_radians_swap (x y : ℝ) :
    Real.sin (radians (x - y) / 2) ^ 2 = Real.sin (radians (y - x) / 2) ^ 2 := by
  have h : radians (x - y) = -(radians (y - x)) := by
    unfold radians
    ring
  rw [h, neg_div, Real.sin_neg, neg_sq]

/-- The one-dimensional line distance is a pure function of coordinates. -/
theorem distAbs_coord : CoordDist distAbs := by
  intro m1 m2 m3 m4 h1 _ h3 _
  unfold distAbs
  rw [h1, h3]

/-! # The claims -/

/-- C1 (counterexample): on twelve clustered municipalities whose pairwise
distances are all distinct and pass every rank gate, the canonical assembler
completes and leaves the entity at index 1 with 11 adjacency entries, which
exceeds `MAX_EDGES = 10`: the cap claimed for every final adjacency list
does not hold, because an entity also receives edges while other entities
are primary. -/
theorem c1_cap_counterexample :
    (addEdgesToMunicipalitiesV2 distAbs c1Init).map
      (fun st => (st.getD 1 default).edges.length) = some 11 ∧
    MAX_EDGES < 11 := by
  constructor
  · with_unfolding_all decide
  · decide

/-- C1 (amended): during one entity's own primary iteration, the pop loop
appends at most `MAX_EDGES` edges to that entity's adjacency list (the bound
the code actually enforces); the final list may still exceed `MAX_EDGES`
through edges received while other entities are primary. -/
theorem c1_per_iteration_cap (st : List Municipality) (i : Nat)
    (heap : List (ℚ × Nat)) (st2 : List Municipality) (hi : i < st.length)
    (hne : ∀ x ∈ heap, x.2 ≠ i) (h : popLoop st i heap = some st2) :
    (st2.getD i default).edges.length ≤
      (st.getD i default).edges.length + MAX_EDGES := by
  obtain ⟨new, hnew, hlen, _⟩ := popLoopAux_gate i MAX_EDGES st heap 0 st2 hi hne h
  rw [hnew, List.length_append]
  omega

/-- C1 witness: the per-iteration cap at a concrete two-entity input. -/
theorem c1_per_iteration_cap_witness :
    (popWitOut.getD 0 default).edges.length ≤
      (witInit.getD 0 default).edges.length + MAX_EDGES :=
  c1_per_iteration_cap witInit 0 witHeap popWitOut (by decide)
    (by decide) (by with_unfolding_all rfl)

/-- C2 (counterexample): on three collinear municipalities at positions
0, 60, 125, the middle entity's final adjacency list is `[60, 65]` in
increasing-distance order, and its rank-1 entry 65 violates the claimed gate
`65 ≤ MAX_DISTANCE / 2`: the rank-indexed gate does not hold of final
adjacency lists, only of the candidates accepted during one primary
iteration. -/
theorem c2_gate_counterexample :
    (addEdgesToMunicipalitiesV2 distAbs c2Init).map
      (fun st => (st.getD 1 default).edges.map (fun e => e.distance)) =
        some [60, 65] ∧
    (60 : ℚ) ≤ 65 ∧ ¬ gateAccepts 1 65 := by
  refine ⟨by with_unfolding_all decide, by norm_num, ?_⟩
  intro h
  unfold gateAccepts at h
  norm_num [MAX_DISTANCE] at h

/-- C2 (amended): during one entity's primary iteration, the candidate
accepted at pop rank `r` (0-based) satisfies the gate
`distance ≤ MAX_DISTANCE / 2^r` for `r < 3` and
`distance ≤ MAX_DISTANCE / 3^r` otherwise, equality being accepted (the code
breaks only on strict `>`), and the accepted candidates form one contiguous
block: the first failing candidate ends the iteration's acceptances. -/
theorem c2_iteration_gate (st : List Municipality) (i : Nat)
    (heap : List (ℚ × Nat)) (st2 : List Municipality) (hi : i < st.length)
    (hne : ∀ x ∈ heap, x.2 ≠ i) (h : popLoop st i heap = some st2) :
    ∃ new, (st2.getD i default).edges = (st.getD i default).edges ++ new ∧
      ∀ r, (hr : r < new.length) → gateAccepts r ((new.get ⟨r, hr⟩).distance) := by
  obtain ⟨new, hnew, _, hgate⟩ := popLoopAux_gate i MAX_EDGES st heap 0 st2 hi hne h
  refine ⟨new, hnew, fun r hr => ?_⟩
  have := hgate r hr
  simpa using this

/-- C2 witness: the per-iteration gate at a concrete two-entity input. -/
theorem c2_iteration_gate_witness :
    ∃ new, (popWitOut.getD 0 default).edges =
        (witInit.getD 0 default).edges ++ new ∧
      ∀ r, (hr : r < new.length) → gateAccepts r ((new.get ⟨r, hr⟩).distance) :=
  c2_iteration_gate witInit 0 witHeap popWitOut (by decide) (by decide)
    (by with_unfolding_all rfl)

/-- C3 (counterexample): the same three municipalities (line positions
`A = 0`, `B = 1`, `C = 61`) processed in the orders `A, B, C` and `C, A, B`
give entity `A` the adjacency lists `[B, C]` and `[B]` respectively:
iteration order changes the final adjacency lists. -/
theorem c3_order_counterexample :
    c3InitABC.Perm c3InitCAB ∧
    (addEdgesToMunicipalitiesV2 distAbs c3InitABC).map
      (fun st => (st.getD 0 default).edges.map (fun e => e.toMuniCode)) =
        some ["B", "C"] ∧
    (addEdgesToMunicipalitiesV2 distAbs c3InitCAB).map
      (fun st => (st.getD 1 default).edges.map (fun e => e.toMuniCode)) =
        some ["B"] ∧
    (c3InitABC.getD 0 default).code = "A" ∧
    (c3InitCAB.getD 1 default).code = "A" := by
  refine ⟨by with_unfolding_all decide, by with_unfolding_all decide,
    by with_unfolding_all decide, by decide, by decide⟩

/-- C3 (amended): iteration order does affect the canonical assembler's
output: there are two orderings of one entity set under which some entity
ends with different adjacency lists, because skip-if-already-neighbor
interacts with the rank-indexed gate. -/
theorem c3_order_dependence :
    ∃ l1 l2 : List Municipality, l1.Perm l2 ∧
      ∃ st1 st2 : List Municipality,
        addEdgesToMunicipalitiesV2 distAbs l1 = some st1 ∧
        addEdgesToMunicipalitiesV2 distAbs l2 = some st2 ∧
        ∃ p q, p < st1.length ∧ q < st2.length ∧
          (st1.getD p default).code = (st2.getD q default).code ∧
          (st1.getD p default).edges.length ≠ (st2.getD q default).edges.length := by
  refine ⟨c3InitABC, c3InitCAB, by with_unfolding_all decide, c3OutABC, c3OutCAB,
    by with_unfolding_all rfl, by with_unfolding_all rfl, 0, 1,
    by with_unfolding_all decide, by with_unfolding_all decide,
    by with_unfolding_all decide, by with_unfolding_all decide⟩

/-- C4: in the canonical assembler's output (from an ingestion-clean input),
every edge `(A, B, d)` of `A`'s adjacency list has its mutual reverse edge
`(B, A, d)` with the identical distance in `B`'s adjacency list; and the
precomputed-edge-list variant `addEdgesToMunicipalities` of `test.py` builds
directional out-edges with no such symmetry (a concrete run leaves `A → B`
with no reverse edge at `B`). -/
theorem c4_mutual_edges :
    (∀ (dist : Municipality → Municipality → ℚ) (init st2 : List Municipality),
      InitOK init → addEdgesToMunicipalitiesV2 dist init = some st2 →
      ∀ p, (hp : p < st2.length) → ∀ e ∈ (st2.getD p default).edges,
        e.fromMuniCode = (st2.getD p default).code ∧
        ∃ q, q < st2.length ∧ (st2.getD q default).code = e.toMuniCode ∧
          MunicipalityEdge.mk e.toMuniCode e.fromMuniCode e.distance ∈
            (st2.getD q default).edges) ∧
    (∃ stP, addEdgesToMunicipalities distAbs c4PreInit c4PreEdges = some stP ∧
      (stP.getD 0 default).edges = [⟨"A", "B", 50⟩] ∧
      (stP.getD 1 default).edges = []) := by
  have heval : addEdgesToMunicipalities distAbs c4PreInit c4PreEdges =
      preAux distAbs c4PreEdges c4PreInit := by
    unfold addEdgesToMunicipalities
    rw [show c4PreEdges.mergeSort (fun a b => decide (b.distance ≤ a.distance)) =
      c4PreEdges from by unfold c4PreEdges; exact List.mergeSort_singleton _]
  constructor
  · intro dist init st2 hInit h p hp e he
    obtain ⟨hinv, _⟩ := v2_inv dist init st2 hInit h
    exact ⟨hinv.from_eq p hp e he, hinv.mutual_edge p hp e he⟩
  · refine ⟨(preAux distAbs c4PreEdges c4PreInit).getD [], ?_, ?_, ?_⟩
    · rw [heval]
      with_unfolding_all rfl
    · with_unfolding_all decide
    · with_unfolding_all decide

/-- C4 witness: the mutual-edge conclusion at a concrete two-entity input,
for the concrete edge `V0 → V1` of the first entity. -/
theorem c4_mutual_edges_witness :
    (MunicipalityEdge.mk "V0" "V1" 7).fromMuniCode =
      (witOut.getD 0 default).code ∧
    ∃ q, q < witOut.length ∧
      (witOut.getD q default).code = (MunicipalityEdge.mk "V0" "V1" 7).toMuniCode ∧
      MunicipalityEdge.mk (MunicipalityEdge.mk "V0" "V1" 7).toMuniCode
          (MunicipalityEdge.mk "V0" "V1" 7).fromMuniCode
          (MunicipalityEdge.mk "V0" "V1" 7).distance ∈
        (witOut.getD q default).edges :=
  c4_mutual_edges.1 distAbs witInit witOut (by with_unfolding_all decide)
    (by with_unfolding_all rfl) 0 (by with_unfolding_all decide)
    (MunicipalityEdge.mk "V0" "V1" 7) (by with_unfolding_all decide)

/-- C5: in the canonical assembler's output (from an ingestion-clean input),
no entity's own code appears in its adjacency list and no neighbor code
appears twice within one adjacency list. -/
theorem c5_no_self_no_dup :
    ∀ (dist : Municipality → Municipality → ℚ) (init st2 : List Municipality),
      InitOK init → addEdgesToMunicipalitiesV2 dist init = some st2 →
      ∀ p, (hp : p < st2.length) →
        ((st2.getD p default).edges.map (fun e => e.toMuniCode)).Nodup ∧
        (st2.getD p default).code ∉
          (st2.getD p default).edges.map (fun e => e.toMuniCode) := by
  intro dist init st2 hInit h p hp
  obtain ⟨hinv, _⟩ := v2_inv dist init st2 hInit h
  refine ⟨hinv.to_nodup p hp, ?_⟩
  intro hmem
  rcases List.mem_map.mp hmem with ⟨e, he, hcode⟩
  have h1 := hinv.to_mem_nbrs p hp e he
  rw [hcode] at h1
  exact hinv.self_not_nbr p hp h1

/-- C5 witness: no self-loops and no duplicates at a concrete input, for
the first entity. -/
theorem c5_no_self_no_dup_witness :
    ((witOut.getD 0 default).edges.map (fun e => e.toMuniCode)).Nodup ∧
    (witOut.getD 0 default).code ∉
      (witOut.getD 0 default).edges.map (fun e => e.toMuniCode) :=
  c5_no_self_no_dup distAbs witInit witOut (by with_unfolding_all decide)
    (by with_unfolding_all rfl) 0 (by with_unfolding_all decide)

/-- C6: `getDistanceBetweenMunicipalities` computes exactly the haversine
formula of the specification: with `R = 6371`,
`a = sin²(Δlat/2) + cos(lat1)·cos(lat2)·sin²(Δlon/2)`,
`c = 2·atan2(√a, √(1−a))`, distance `R·c`, converted from kilometers to
miles by dividing by `1.609` (in the real-valued model of the float code). -/
theorem c6_haversine_formula :
    ∀ m1 m2 : GeoPoint,
      getDistanceBetweenMunicipalities m1 m2 = haversineSpecDistance m1 m2 := by
  intro m1 m2
  unfold getDistanceBetweenMunicipalities haversineSpecDistance
  dsimp only
  rw [radians_sub, radians_sub]

/-- C7: the distance function is symmetric in its two arguments (exactly, in
the real-valued model of the float code). -/
theorem c7_distance_symmetric :
    ∀ m1 m2 : GeoPoint,
      getDistanceBetweenMunicipalities m1 m2 =
        getDistanceBetweenMunicipalities m2 m1 := by
  intro m1 m2
  unfold getDistanceBetweenMunicipalities
  dsimp only
  rw [sin_sq_radians_swap m2.lat m1.lat, sin_sq_radians_swap m2.lon m1.lon,
    mul_comm (Real.cos (radians m1.lat)) (Real.cos (radians m2.lat))]

/-- C8: the superseded `Municipality.addEdge` admits an edge iff its
distance passes the check (below `MAX_DISTANCE`, or below `2 * MAX_DISTANCE`
when either endpoint code starts with `"09"`) and the retained list is under
capacity or the new edge is farther than the smallest retained edge; a
rejected edge leaves the municipality unchanged, an admitted edge under
capacity is retained; and the `09` doubling is absent from the canonical
selector: the `09`-edge at distance 150 that `addEdge` admits fails the V2
gate at every rank. -/
theorem c8_addEdge_admission :
    (∀ (m : Municipality) (e : MunicipalityEdge),
      (∀ x ∈ m.edges, (m.edges.headD e).distance ≤ x.distance) →
      (addEdgeAdmits m e ↔ addEdgeAdmitsSpec m e)) ∧
    (∀ (m : Municipality) (e : MunicipalityEdge),
      ¬ addEdgeAdmits m e → m.addEdge e = some m) ∧
    (∀ (m : Municipality) (e : MunicipalityEdge),
      addEdgeAdmits m e → m.edges.length < MAX_EDGES →
      ∃ m2, m.addEdge e = some m2 ∧ m2.edges.length = m.edges.length + 1 ∧
        e ∈ m2.edges) ∧
    (addEdgeAdmits (mkMuni "X" 0) c8Edge09 ∧ MAX_DISTANCE < c8Edge09.distance ∧
      ∀ j : Nat, ¬ gateAccepts j c8Edge09.distance) := by
  refine ⟨addEdgeAdmits_iff_spec, addEdge_eq_self_of_not_admits,
    addEdge_admits_under_capacity, ?_, ?_, ?_⟩
  · with_unfolding_all decide
  · with_unfolding_all decide
  · intro j
    exact not_gateAccepts_of_gt_max (by norm_num [MAX_DISTANCE, c8Edge09])

/-- C8 witness: the admission equivalence at a concrete input. -/
theorem c8_addEdge_admission_witness :
    addEdgeAdmits (mkMuni "Y" 0) (MunicipalityEdge.mk "Y" "Z" 42) ↔
      addEdgeAdmitsSpec (mkMuni "Y" 0) (MunicipalityEdge.mk "Y" "Z" 42) :=
  c8_addEdge_admission.1 (mkMuni "Y" 0) (MunicipalityEdge.mk "Y" "Z" 42)
    (by with_unfolding_all decide)

/-- C9: the canonical assembler's serialization step
(`json.dump` with `municipalityDictSerializer`) deletes `_neighbors` from
every live municipality object, so no entity of the returned mapping carries
the attribute, and serializing the same (nonempty) mapping a second time
raises `KeyError`. -/
theorem c9_serializer_strips :
    ∀ (dist : Municipality → Municipality → ℚ) (init : List Municipality)
      (out : List PyMunicipality),
      addEdgesToMunicipalitiesV2Serialized dist init = some out →
      (∀ m ∈ out, m.hasNeighborsAttr = false) ∧
      (out ≠ [] → serializeMunicipalityDict out = none) := by
  intro dist init out h
  unfold addEdgesToMunicipalitiesV2Serialized at h
  split at h
  · cases h
  next st hst =>
    have h1 := serialize_attrs_false _ _ h
    exact ⟨h1, fun hne => serialize_none_of_false out hne h1⟩

/-- C9 witness: serializing one assembled municipality strips the attribute
and the second serialization fails. -/
theorem c9_serializer_strips_witness :
    (∀ m ∈ c9WitOut, m.hasNeighborsAttr = false) ∧
    (c9WitOut ≠ [] → serializeMunicipalityDict c9WitOut = none) :=
  c9_serializer_strips distAbs c9WitInit c9WitOut (by with_unfolding_all rfl)

/-- C10 (counterexample): on six municipalities where the first entity has
two candidates at exactly equal distance 250, the tied heap entries are
never compared (they are never in an ancestor or sibling-comparison
position), so the canonical assembler completes without a `TypeError`:
equal candidate distances do not always raise, and pairwise-distinct
distances are not necessary for error-free completion. -/
theorem c10_tie_counterexample :
    (addEdgesToMunicipalitiesV2 distAbs c10TieInit).isSome = true ∧
    distAbs (c10TieInit.getD 0 default) (c10TieInit.getD 3 default) =
      distAbs (c10TieInit.getD 0 default) (c10TieInit.getD 4 default) ∧
    (3 : Nat) ≠ 4 := by
  refine ⟨by with_unfolding_all decide, by with_unfolding_all decide, by decide⟩

/-- C10 (amended): equal candidate distances can raise the modelled
`TypeError` (a concrete three-entity run fails on the second heap push), and
pairwise-distinct candidate distances per primary are a sufficient
precondition for the selector to complete without error — but a tie does not
always raise. -/
theorem c10_tie_behaviour :
    (addEdgesToMunicipalitiesV2 distAbs c10ErrInit = none) ∧
    (∀ (dist : Municipality → Municipality → ℚ) (init : List Municipality),
      CoordDist dist → RowDistinct dist init →
      ∃ st2, addEdgesToMunicipalitiesV2 dist init = some st2) :=
  ⟨by with_unfolding_all decide,
    fun dist init hcd hrow => v2_total dist init hcd hrow⟩

/-- C10 witness: the sufficiency direction at a concrete two-entity input. -/
theorem c10_tie_behaviour_witness :
    ∃ st2, addEdgesToMunicipalitiesV2 distAbs witInit = some st2 :=
  c10_tie_behaviour.2 distAbs witInit distAbs_coord (by with_unfolding_all decide)

end MexicoEVData
